import Mathlib

/-!
Verification development for the `zhgh66/Database` repository
(`src/extendible_hash_table.cpp` and `src/lru_k_replacer.cpp`, C++ namespace
`bustub`).  The two data structures are shallowly embedded as pure Lean
functions over explicit state records:

* machine integers (`size_t`, `int`) are modelled as `Nat`; the C++ bit mask
  `x & ((1 << d) - 1)` is written `x % 2 ^ d`;
* `std::unordered_map` is modelled as an association list kept in
  first-insertion order (C++ leaves the iteration order unspecified; the
  modelled order is noted wherever a proof depends on it);
* `std::list` / `std::vector` contents are Lean `List`s;
* the `shared_ptr<Bucket>` aliasing of directory slots is modelled as an
  arena `buckets : List (Bucket K V)` with the directory holding arena
  indices, so that mutation through one slot is visible through every
  aliasing slot, exactly as with shared pointers.

All operations are executable (`decide` / `rfl` evaluate them on concrete
inputs).
-/

namespace bustub

/-! ### LRU-K replacer (`src/lru_k_replacer.cpp`) -/

/-- Replacer state: the fields of class `LRUKReplacer`.
`accessHistory` models `std::unordered_map<frame_id_t, std::vector<size_t>> access_history_`
as an association list in first-insertion order; `evictable` models
`std::unordered_map<frame_id_t, bool> evictable_` (absent key reads as
`false`, matching `operator[]` default construction).  `size_t` counters are
modelled as `Nat`; the `size_t` wrap-around of `curr_size_--` is not modelled
because no public observer reads `curr_size_` (`Size()` recounts the map). -/
structure LRUKReplacer where
  accessHistory : List (Nat × List Nat)
  evictable : List (Nat × Bool)
  replacerSize : Nat
  k : Nat
  currentTimestamp : Nat
  currSize : Nat
deriving DecidableEq

namespace LRUKReplacer

/-- Constructor `LRUKReplacer(num_frames, k)`. -/
def newReplacer (numFrames kk : Nat) : LRUKReplacer :=
  ⟨[], [], numFrames, kk, 0, 0⟩

/-- Association-list lookup (first entry with the given key), the model of
`unordered_map::find`. -/
def lookupA {α : Type} : List (Nat × α) → Nat → Option α
  | [], _ => none
  | p :: rest, f => if p.1 = f then some p.2 else lookupA rest f

/-- Replace the value at the first entry with the given key (no-op when the
key is absent): the model of assignment through `unordered_map::operator[]`
for a present key. -/
def updateA {α : Type} : List (Nat × α) → Nat → α → List (Nat × α)
  | [], _, _ => []
  | p :: rest, f, x => if p.1 = f then (p.1, x) :: rest else p :: updateA rest f x

/-- Set-or-insert for `evictable_[f] = b` (insert at the end when absent;
`unordered_map` fixes no position, the model picks the end). -/
def setA : List (Nat × Bool) → Nat → Bool → List (Nat × Bool)
  | [], f, b => [(f, b)]
  | p :: rest, f, b => if p.1 = f then (p.1, b) :: rest else p :: setA rest f b

/-- Erase the first entry with the given key: `unordered_map::erase`. -/
def eraseA {α : Type} : List (Nat × α) → Nat → List (Nat × α)
  | [], _ => []
  | p :: rest, f => if p.1 = f then rest else p :: eraseA rest f

/-- Reading `evictable_[id]`: absent keys read as default-constructed
`false`.  (The C++ `operator[]` also inserts that `false` entry; the
insertion is invisible to `Size()` and to every other observer, so the model
elides it.) -/
def getEv (r : LRUKReplacer) (f : Nat) : Bool :=
  match lookupA r.evictable f with
  | some b => b
  | none => false

/-- `LRUKReplacer::RecordAccess`: create the history entry on first touch,
append `current_timestamp_`, increment the timestamp. -/
def recordAccess (r : LRUKReplacer) (f : Nat) : LRUKReplacer :=
  match lookupA r.accessHistory f with
  | none =>
      { r with accessHistory := r.accessHistory ++ [(f, [r.currentTimestamp])],
               currentTimestamp := r.currentTimestamp + 1 }
  | some h =>
      { r with accessHistory := updateA r.accessHistory f (h ++ [r.currentTimestamp]),
               currentTimestamp := r.currentTimestamp + 1 }

/-- `LRUKReplacer::SetEvictable`: no-op when the frame has no history entry;
otherwise flip the flag and adjust `curr_size_` when the flag changes. -/
def setEvictable (r : LRUKReplacer) (f : Nat) (flag : Bool) : LRUKReplacer :=
  match lookupA r.accessHistory f with
  | none => r
  | some _ =>
      if getEv r f ≠ flag then
        { r with evictable := setA r.evictable f flag,
                 currSize := if flag then r.currSize + 1 else r.currSize - 1 }
      else r

/-- `LRUKReplacer::Remove`: only when the frame is tracked and evictable,
erase its history, clear the flag and decrement `curr_size_`. -/
def removeFrame (r : LRUKReplacer) (f : Nat) : LRUKReplacer :=
  if (lookupA r.accessHistory f).isSome ∧ getEv r f then
    { r with accessHistory := eraseA r.accessHistory f,
             evictable := setA r.evictable f false,
             currSize := r.currSize - 1 }
  else r

/-- The candidate-selection loop of `LRUKReplacer::Evict`, folded over
`access_history_` in the modelled (first-insertion) iteration order.  The
accumulator carries `(victim_id, max_backward_distance, latest_access_time,
found_candidate_with_less_than_k_accesses)`; the C++ initial values
`std::numeric_limits<size_t>::min()` and `::max()` are `0` and `2 ^ 64 - 1`.
`history[0]`, `history[history.size() - k_]` and `history.back()` are read
with default `0` (in every state built by the public operations histories of
tracked frames are non-empty and `k_ ≥ 1` callers keep the reads in
bounds). -/
def evictLoop (r : LRUKReplacer) :
    List (Nat × List Nat) → Option Nat × Nat × Nat × Bool → Option Nat × Nat × Nat × Bool
  | [], st => st
  | (id, history) :: rest, (victim, maxBack, latest, found) =>
    if getEv r id = false then
      evictLoop r rest (victim, maxBack, latest, found)
    else
      let found' := found || decide (history.length < r.k)
      let backward : Nat :=
        if history.length < r.k then history.headD 0
        else r.currentTimestamp - history.getD (history.length - r.k) 0
      if found' then
        if backward < latest then
          evictLoop r rest (some id, maxBack, backward, found')
        else
          evictLoop r rest (victim, maxBack, latest, found')
      else
        if backward > maxBack ∨ (backward = maxBack ∧ history.getLastD 0 < latest) then
          evictLoop r rest (some id, backward, history.getLastD 0, found')
        else
          evictLoop r rest (victim, maxBack, latest, found')

/-- `LRUKReplacer::Evict`: scan for a victim; on success erase its history,
clear its flag, decrement `curr_size_`, and return it. -/
def evict (r : LRUKReplacer) : LRUKReplacer × Option Nat :=
  let st := evictLoop r r.accessHistory (none, 0, 2 ^ 64 - 1, false)
  match st.1 with
  | none => (r, none)
  | some vid =>
      ({ r with accessHistory := eraseA r.accessHistory vid,
                evictable := setA r.evictable vid false,
                currSize := r.currSize - 1 }, some vid)

/-- `LRUKReplacer::Size`: count the `true` entries of `evictable_`. -/
def size (r : LRUKReplacer) : Nat :=
  (r.evictable.filter (fun p => p.2)).length

end LRUKReplacer

/-- An operation on the replacer, for stating properties of whole call
sequences. -/
inductive ROp where
  | record (f : Nat)
  | setEv (f : Nat) (b : Bool)
  | rm (f : Nat)
  | evictOp
deriving DecidableEq

namespace LRUKReplacer

/-- Apply one operation (the new state; `Evict`'s output is dropped). -/
def applyROp (r : LRUKReplacer) : ROp → LRUKReplacer
  | .record f => recordAccess r f
  | .setEv f b => setEvictable r f b
  | .rm f => removeFrame r f
  | .evictOp => (evict r).1

/-- Run a sequence of operations from a state. -/
def runOps : LRUKReplacer → List ROp → LRUKReplacer
  | r, [] => r
  | r, op :: rest => runOps (applyROp r op) rest

/-- Well-formedness that `std::unordered_map` provides by construction:
each key occurs at most once. -/
def WF (r : LRUKReplacer) : Prop :=
  (r.accessHistory.map Prod.fst).Nodup ∧ (r.evictable.map Prod.fst).Nodup

/-- The tracked frames (keys of `access_history_`). -/
def histKeys (r : LRUKReplacer) : List Nat := r.accessHistory.map Prod.fst

/-- Invariant giving the capacity bound: tracked frames stay inside
`allowed`, every frame with a `true` flag is tracked, and the two maps have
no duplicate keys. -/
structure RInv (allowed : List Nat) (r : LRUKReplacer) : Prop where
  histNodup : (r.accessHistory.map Prod.fst).Nodup
  evNodup : (r.evictable.map Prod.fst).Nodup
  histSub : ∀ f ∈ r.accessHistory.map Prod.fst, f ∈ allowed
  evTrue : ∀ f, getEv r f = true → f ∈ r.accessHistory.map Prod.fst

/-- Scenario R2 of the spec: `K = 2`, accesses `1,2,1,2,3,1`, every frame
made evictable. -/
def scenarioR2 : LRUKReplacer :=
  let r := newReplacer 7 2
  let r := recordAccess r 1
  let r := recordAccess r 2
  let r := recordAccess r 1
  let r := recordAccess r 2
  let r := recordAccess r 3
  let r := recordAccess r 1
  let r := setEvictable r 1 true
  let r := setEvictable r 2 true
  setEvictable r 3 true

/-- Operation sequence violating the claimed capacity bound on a
capacity-1 replacer: two distinct frames recorded and made evictable. -/
def c6ops : List ROp :=
  [ROp.record 1, ROp.record 2, ROp.setEv 1 true, ROp.setEv 2 true]

/-- Frames recorded by a sequence of operations. -/
def recFrames : List ROp → List Nat
  | [] => []
  | ROp.record f :: rest => f :: recFrames rest
  | ROp.setEv _ _ :: rest => recFrames rest
  | ROp.rm _ :: rest => recFrames rest
  | ROp.evictOp :: rest => recFrames rest

/-- A state with frame 1 tracked and evictable (used to instantiate the
`Remove` specification). -/
def c8state : LRUKReplacer :=
  setEvictable (recordAccess (newReplacer 2 2) 1) 1 true

end LRUKReplacer

/-! ### Extendible hash table (`src/extendible_hash_table.cpp`) -/

/-- The nested class `ExtendibleHashTable<K,V>::Bucket`: entry list `list_`,
capacity `size_`, local depth `depth_`. -/
structure Bucket (K V : Type) where
  list : List (K × V)
  size : Nat
  depth : Nat
deriving DecidableEq

namespace Bucket

variable {K V : Type} [DecidableEq K]

/-- The scan loop of `Bucket::Find`: value of the first entry with the key. -/
def findVal : List (K × V) → K → Option V
  | [], _ => none
  | p :: rest, key => if p.1 = key then some p.2 else findVal rest key

/-- `Bucket::Find` (the C++ version writes the value to an out-parameter and
returns a bool; the model returns `Option V`). -/
def find (b : Bucket K V) (key : K) : Option V := findVal b.list key

/-- The loop of `Bucket::Remove`: erase the first entry with the key,
reporting whether one was found. -/
def removeList : List (K × V) → K → List (K × V) × Bool
  | [], _ => ([], false)
  | p :: rest, key =>
    if p.1 = key then (rest, true)
    else
      let r := removeList rest key
      (p :: r.1, r.2)

/-- `Bucket::Remove`. -/
def remove (b : Bucket K V) (key : K) : Bucket K V × Bool :=
  let r := removeList b.list key
  ({ b with list := r.1 }, r.2)

/-- The first loop of `Bucket::Insert`: overwrite the value of the first
entry carrying the key; `none` when the key is absent. -/
def overwriteFirst : List (K × V) → K → V → Option (List (K × V))
  | [], _, _ => none
  | p :: rest, key, v =>
    if p.1 = key then some ((p.1, v) :: rest)
    else (overwriteFirst rest key v).map (fun l => p :: l)

/-- Modelled from the spec: `Bucket::IsFull` is an inline member of the
header `extendible_hash_table.h`, which is not under src/.  Spec §3.1: a
bucket holds at most `bucket_capacity` entries, so the bucket is full once
its list has reached `size_`. -/
def isFull (b : Bucket K V) : Bool := b.size ≤ b.list.length

/-- `Bucket::Insert`: overwrite an existing key, else refuse when full, else
append. -/
def insert (b : Bucket K V) (key : K) (v : V) : Bucket K V × Bool :=
  match overwriteFirst b.list key v with
  | some l => ({ b with list := l }, true)
  | none =>
      if b.isFull then (b, false)
      else ({ b with list := b.list ++ [(key, v)] }, true)

end Bucket

/-- The table state.  `buckets` is an arena modelling the set of
`shared_ptr<Bucket>` objects; `dir` holds arena indices, so several
directory slots aliasing one bucket are several equal indices (spec §9
explicitly sanctions this arena view of the shared ownership). -/
structure HashTable (K V : Type) where
  globalDepth : Nat
  bucketSize : Nat
  numBuckets : Nat
  buckets : List (Bucket K V)
  dir : List Nat
deriving DecidableEq

namespace HashTable

variable {K V : Type} [DecidableEq K]

/-- Modelled from the spec (partly): the constructor in src/ initializes
`global_depth_ = 0`, `bucket_size_ = cap` and pushes one bucket of depth 0;
the initializer of `num_buckets_` lives in the header (not under src/), and
spec §3.1 gives `bucket_count = 1` on construction. -/
def newTable (cap : Nat) : HashTable K V :=
  ⟨0, cap, 1, [⟨[], cap, 0⟩], [0]⟩

/-- `IndexOf`: `hash(key) & ((1 << global_depth_) - 1)`. -/
def indexOf (hash : K → Nat) (t : HashTable K V) (key : K) : Nat :=
  hash key % 2 ^ t.globalDepth

/-- The bucket a directory slot points to (`dir_.at(s)` dereferenced).
Out-of-range reads return the designated default; the invariants below rule
them out on reachable states. -/
def bucketAt (t : HashTable K V) (s : Nat) : Bucket K V :=
  t.buckets.getD (t.dir.getD s 0) ⟨[], 0, 0⟩

/-- `GetGlobalDepth`. -/
def getGlobalDepth (t : HashTable K V) : Nat := t.globalDepth

/-- `GetNumBuckets`. -/
def getNumBuckets (t : HashTable K V) : Nat := t.numBuckets

/-- `GetLocalDepth`. -/
def getLocalDepth (t : HashTable K V) (s : Nat) : Nat := (t.bucketAt s).depth

/-- `ExtendibleHashTable::Find`. -/
def find (hash : K → Nat) (t : HashTable K V) (key : K) : Option V :=
  (t.bucketAt (t.indexOf hash key)).find key

/-- `ExtendibleHashTable::Remove`: look the key up first, then erase it from
the bucket at its slot. -/
def remove (hash : K → Nat) (t : HashTable K V) (key : K) : HashTable K V × Bool :=
  let index := t.indexOf hash key
  let bidx := t.dir.getD index 0
  let b := t.bucketAt index
  match b.find key with
  | none => (t, false)
  | some _ => ({ t with buckets := t.buckets.set bidx (b.remove key).1 }, true)

/-- The redistribution loop of the split step, folded over the snapshot
`origin_items`: an entry whose hash does not match `origin_index` under the
new local mask is removed from the origin bucket and inserted into the
divide bucket. -/
def redistribute (hash : K → Nat) (g d origin : Nat) :
    List (K × V) → Bucket K V × Bucket K V → Bucket K V × Bucket K V
  | [], bs => bs
  | p :: rest, (ob, db) =>
    if (hash p.1 % 2 ^ g) % 2 ^ d ≠ origin then
      redistribute hash g d origin rest ((ob.remove p.1).1, (db.insert p.1 p.2).1)
    else
      redistribute hash g d origin rest (ob, db)

/-- One expansion/split iteration of the `while (true)` loop of
`ExtendibleHashTable::Insert`, taken when the bucket at the key's slot
refused the entry:

* directory doubling when `bucket->GetDepth() == global_depth_`;
* `bucket->IncrementDepth()`; `local_mask = (1 << depth) - 1` (masking with
  it is `% 2 ^ depth`);
* `origin_index = index & local_mask`;
* `divide_index = (origin_index ^ (~local_mask >> 1)) & local_mask`, which
  xors bit `depth - 1` into `origin_index`; on the `depth`-bit value
  `origin` this toggles the top bit, written arithmetically below;
* redistribute the snapshot of the origin bucket's items;
* remap every directory slot matching `origin_index` (resp. `divide_index`)
  under the local mask to the origin (resp. new divide) bucket. -/
def splitStep (hash : K → Nat) (key : K) (t : HashTable K V) : HashTable K V :=
  let index := t.indexOf hash key
  let bidx := t.dir.getD index 0
  let bucket := t.bucketAt index
  let t1 : HashTable K V :=
    if bucket.depth = t.globalDepth then
      { t with globalDepth := t.globalDepth + 1, dir := t.dir ++ t.dir }
    else t
  let newDepth := bucket.depth + 1
  let origin := index % 2 ^ newDepth
  let divide :=
    if origin < 2 ^ (newDepth - 1) then origin + 2 ^ (newDepth - 1)
    else origin - 2 ^ (newDepth - 1)
  let originStart : Bucket K V := { bucket with depth := newDepth }
  let divideStart : Bucket K V := ⟨[], t.bucketSize, newDepth⟩
  let pair := redistribute hash t1.globalDepth newDepth origin bucket.list (originStart, divideStart)
  let dir2 := (List.range t1.dir.length).map (fun s =>
    if s % 2 ^ newDepth = origin then bidx
    else if s % 2 ^ newDepth = divide then t1.buckets.length
    else t1.dir.getD s 0)
  { globalDepth := t1.globalDepth, bucketSize := t.bucketSize,
    numBuckets := t.numBuckets + 1,
    buckets := t1.buckets.set bidx pair.1 ++ [pair.2],
    dir := dir2 }

/-- `ExtendibleHashTable::Insert`'s `while (true)` loop with explicit fuel;
`none` means the fuel ran out before the insertion succeeded. -/
def insertLoop (hash : K → Nat) (key : K) (v : V) :
    HashTable K V → Nat → Option (HashTable K V)
  | _, 0 => none
  | t, fuel + 1 =>
    let bidx := t.dir.getD (t.indexOf hash key) 0
    let bucket := t.bucketAt (t.indexOf hash key)
    let r := bucket.insert key v
    if r.2 then some { t with buckets := t.buckets.set bidx r.1 }
    else insertLoop hash key v (splitStep hash key t) fuel

/-- All keys stored anywhere in the arena. -/
def tableKeys (t : HashTable K V) : List K :=
  (t.buckets.map (fun b => b.list.map Prod.fst)).flatten

/-- The states produced by the public interface: construction
(`bucket_capacity ≥ 1`, spec §6), terminating insertions, and removals. -/
inductive Reachable (hash : K → Nat) : HashTable K V → Prop
  | init (cap : Nat) (h : 0 < cap) : Reachable hash (newTable cap)
  | insertStep {t t' : HashTable K V} {key : K} {v : V} {fuel : Nat} :
      Reachable hash t → insertLoop hash key v t fuel = some t' → Reachable hash t'
  | removeStep {t : HashTable K V} (key : K) :
      Reachable hash t → Reachable hash (remove hash t key).1

/-- Directory-bucket coherence (spec §8.1): every entry of the bucket at
slot `s` matches `s` on the bucket's low `d_local` bits. -/
def Coherent (hash : K → Nat) (t : HashTable K V) : Prop :=
  ∀ s < t.dir.length, ∀ p ∈ (t.bucketAt s).list,
    hash p.1 % 2 ^ (t.bucketAt s).depth = s % 2 ^ (t.bucketAt s).depth

/-- The inductive invariant of the table:
directory length, valid arena indices, positive capacity, uniform bucket
capacity, bucket occupancy bounds, per-bucket key uniqueness, local depth
bounded by global depth, coherence, and the two directions of the
slot-sharing law (slots agreeing on a bucket's low `d_local` bits share the
bucket, and slots of one bucket agree on its low `d_local` bits). -/
structure Inv (hash : K → Nat) (t : HashTable K V) : Prop where
  dirLen : t.dir.length = 2 ^ t.globalDepth
  dirValid : ∀ s ∈ t.dir, s < t.buckets.length
  capPos : 0 < t.bucketSize
  sizeEq : ∀ b ∈ t.buckets, b.size = t.bucketSize
  lenLe : ∀ b ∈ t.buckets, b.list.length ≤ b.size
  keysNodup : ∀ b ∈ t.buckets, (b.list.map Prod.fst).Nodup
  depthLe : ∀ s < t.dir.length, (t.bucketAt s).depth ≤ t.globalDepth
  coh : ∀ s < t.dir.length, ∀ p ∈ (t.bucketAt s).list,
      hash p.1 % 2 ^ (t.bucketAt s).depth = s % 2 ^ (t.bucketAt s).depth
  sameClass : ∀ s < t.dir.length, ∀ s2 < t.dir.length,
      s2 % 2 ^ (t.bucketAt s).depth = s % 2 ^ (t.bucketAt s).depth →
      t.dir.getD s2 0 = t.dir.getD s 0
  sameIdx : ∀ s < t.dir.length, ∀ s2 < t.dir.length,
      t.dir.getD s2 0 = t.dir.getD s 0 →
      s2 % 2 ^ (t.bucketAt s).depth = s % 2 ^ (t.bucketAt s).depth

/-- An upper bound `D` with `2 ^ D` above every hash value relevant to
inserting `key`: once the local depth of `key`'s bucket reaches `D`, the low
`D` bits determine stored hashes completely. -/
def hashBound (hash : K → Nat) (t : HashTable K V) (key : K) : Nat :=
  ((key :: tableKeys t).map hash).foldr max 0 + 1

/-- Fuel sufficient for `Insert`'s retry loop when the hash separates the
stored keys from `key` (each failing iteration raises the local depth of
`key`'s bucket by one, and depth `hashBound` forces success). -/
def insertFuel (hash : K → Nat) (t : HashTable K V) (key : K) : Nat :=
  hashBound hash t key + 1

/-- Scenario H1 of the spec with the identity hash: fresh table of bucket
capacity 2; insert `(0,0)`, `(4,4)`, `(2,2)` (ample fuel). -/
def scenarioH1 : Option (HashTable Nat Nat) :=
  ((insertLoop (fun n => n) 0 0 (newTable 2) 9).bind
    (insertLoop (fun n => n) 4 4 · 9)).bind
    (insertLoop (fun n => n) 2 2 · 9)

/-- Scenario H2 of the spec: bucket capacity 1; insert `(7,"a")` then
`(7,"b")`. -/
def scenarioH2 : Option (HashTable Nat String) :=
  (insertLoop (fun n => n) 7 "a" (newTable 1) 9).bind
    (insertLoop (fun n => n) 7 "b" · 9)

end HashTable

/-! ## Theorems -/

namespace LRUKReplacer

theorem lookupA_eq_none {α : Type} (l : List (Nat × α)) (f : Nat) :
    lookupA l f = none ↔ f ∉ l.map Prod.fst := by
  induction l with
  | nil => simp [lookupA]
  | cons p rest ih =>
    simp only [lookupA, List.map_cons, List.mem_cons]
    by_cases h : p.1 = f
    · simp [h]
    · simp only [if_neg h, ih]
      constructor
      · intro hn
        push_neg
        exact ⟨fun he => h he.symm, hn⟩
      · intro hn
        push_neg at hn
        exact hn.2

theorem mem_of_lookupA_isSome {α : Type} {l : List (Nat × α)} {f : Nat}
    (h : (lookupA l f).isSome) : f ∈ l.map Prod.fst := by
  by_contra hmem
  rw [← lookupA_eq_none] at hmem
  rw [hmem] at h
  simp at h

theorem lookupA_setA_self (l : List (Nat × Bool)) (f : Nat) (b : Bool) :
    lookupA (setA l f b) f = some b := by
  induction l with
  | nil => simp [setA, lookupA]
  | cons p rest ih =>
    by_cases h : p.1 = f <;> simp [setA, lookupA, h, ih]

theorem lookupA_setA_ne (l : List (Nat × Bool)) (f f2 : Nat) (b : Bool) (h : f2 ≠ f) :
    lookupA (setA l f b) f2 = lookupA l f2 := by
  induction l with
  | nil => simp [setA, lookupA, Ne.symm h]
  | cons p rest ih =>
    by_cases hp : p.1 = f
    · have hne : ¬ p.1 = f2 := fun h2 => h (h2.symm.trans hp)
      simp only [setA, if_pos hp, lookupA, if_neg hne]
    · simp only [setA, if_neg hp, lookupA]
      by_cases h2 : p.1 = f2 <;> simp [h2, ih]

theorem lookupA_eraseA_ne {α : Type} (l : List (Nat × α)) (f f2 : Nat) (h : f2 ≠ f) :
    lookupA (eraseA l f) f2 = lookupA l f2 := by
  induction l with
  | nil => simp [eraseA]
  | cons p rest ih =>
    by_cases hp : p.1 = f
    · have hne : ¬ p.1 = f2 := fun h2 => h (h2.symm.trans hp)
      simp [eraseA, hp, lookupA, hne, Ne.symm h]
    · simp only [eraseA, if_neg hp, lookupA]
      by_cases h2 : p.1 = f2 <;> simp [h2, ih]

theorem eraseA_sublist {α : Type} (l : List (Nat × α)) (f : Nat) :
    (eraseA l f).Sublist l := by
  induction l with
  | nil => simp [eraseA]
  | cons p rest ih =>
    by_cases hp : p.1 = f
    · simp only [eraseA, if_pos hp]
      exact List.sublist_cons_self p rest
    · simp only [eraseA, if_neg hp]
      exact ih.cons₂ p

theorem lookupA_eraseA_self {α : Type} (l : List (Nat × α)) (f : Nat)
    (hnd : (l.map Prod.fst).Nodup) : lookupA (eraseA l f) f = none := by
  induction l with
  | nil => simp [eraseA, lookupA]
  | cons p rest ih =>
    simp only [List.map_cons, List.nodup_cons] at hnd
    by_cases hp : p.1 = f
    · rw [lookupA_eq_none]
      simp only [eraseA, if_pos hp]
      exact fun hmem => hnd.1 (hp ▸ hmem)
    · simp only [eraseA, if_neg hp, lookupA, if_neg hp]
      exact ih hnd.2

theorem mem_map_fst_eraseA {α : Type} (l : List (Nat × α)) (f f2 : Nat) (h : f2 ≠ f)
    (hmem : f2 ∈ l.map Prod.fst) : f2 ∈ (eraseA l f).map Prod.fst := by
  induction l with
  | nil => simp at hmem
  | cons p rest ih =>
    rw [List.map_cons] at hmem
    rcases List.mem_cons.mp hmem with h1 | h1
    · have hp : ¬ p.1 = f := fun h2 => h (h1.trans h2)
      simp only [eraseA, if_neg hp, List.map_cons, List.mem_cons]
      exact Or.inl h1
    · by_cases hp : p.1 = f
      · simp only [eraseA, if_pos hp]
        exact h1
      · simp only [eraseA, if_neg hp, List.map_cons, List.mem_cons]
        exact Or.inr (ih h1)

theorem map_fst_updateA {α : Type} (l : List (Nat × α)) (f : Nat) (x : α) :
    (updateA l f x).map Prod.fst = l.map Prod.fst := by
  induction l with
  | nil => simp [updateA]
  | cons p rest ih =>
    by_cases hp : p.1 = f <;> simp [updateA, hp, ih]

theorem mem_map_fst_setA (l : List (Nat × Bool)) (f f2 : Nat) (b : Bool)
    (h : f2 ∈ (setA l f b).map Prod.fst) : f2 ∈ l.map Prod.fst ∨ f2 = f := by
  induction l with
  | nil =>
    simp only [setA, List.map_cons, List.map_nil, List.mem_singleton] at h
    exact Or.inr h
  | cons p rest ih =>
    by_cases hp : p.1 = f
    · simp only [setA, if_pos hp, List.map_cons, List.mem_cons] at h ⊢
      rcases h with h | h
      · exact Or.inl (Or.inl (hp ▸ h))
      · exact Or.inl (Or.inr h)
    · simp only [setA, if_neg hp, List.map_cons, List.mem_cons] at h ⊢
      rcases h with h | h
      · exact Or.inl (Or.inl h)
      · rcases ih h with h2 | h2
        · exact Or.inl (Or.inr h2)
        · exact Or.inr h2

theorem nodup_setA (l : List (Nat × Bool)) (f : Nat) (b : Bool)
    (hnd : (l.map Prod.fst).Nodup) : ((setA l f b).map Prod.fst).Nodup := by
  induction l with
  | nil => simp [setA]
  | cons p rest ih =>
    simp only [List.map_cons, List.nodup_cons] at hnd
    by_cases hp : p.1 = f
    · simp only [setA, if_pos hp, List.map_cons, List.nodup_cons]
      exact ⟨hp ▸ hnd.1, hnd.2⟩
    · simp only [setA, if_neg hp, List.map_cons, List.nodup_cons]
      refine ⟨fun hmem => ?_, ih hnd.2⟩
      rcases mem_map_fst_setA rest f p.1 b hmem with h | h
      · exact hnd.1 h
      · exact hp h

theorem lookupA_of_mem_nodup {α : Type} {l : List (Nat × α)} {f : Nat} {x : α}
    (hnd : (l.map Prod.fst).Nodup) (hmem : (f, x) ∈ l) : lookupA l f = some x := by
  induction l with
  | nil => simp at hmem
  | cons p rest ih =>
    simp only [List.map_cons, List.nodup_cons] at hnd
    rcases List.mem_cons.mp hmem with h | h
    · rw [← h]
      simp [lookupA]
    · have hne : p.1 ≠ f := by
        intro hp
        exact hnd.1 (hp ▸ List.mem_map_of_mem Prod.fst h)
      simp [lookupA, hne, ih hnd.2 h]

theorem size_setA_false (l : List (Nat × Bool)) (f : Nat)
    (h : lookupA l f = some true) :
    ((setA l f false).filter (fun p => p.2)).length + 1 =
      (l.filter (fun p => p.2)).length := by
  induction l with
  | nil => simp [lookupA] at h
  | cons p rest ih =>
    by_cases hp : p.1 = f
    · simp only [lookupA, if_pos hp] at h
      have hp2 : p.2 = true := by simpa using h
      simp [setA, hp, hp2]
    · simp only [lookupA, if_neg hp] at h
      by_cases h2 : p.2 = true <;>
        simp [setA, hp, List.filter_cons, h2, Nat.add_right_comm, ih h]

theorem size_le_of_rinv {allowed : List Nat} {r : LRUKReplacer}
    (h : RInv allowed r) : size r ≤ allowed.length := by
  have hsub : ∀ x ∈ (r.evictable.filter (fun p => p.2)).map Prod.fst, x ∈ allowed := by
    intro x hx
    rcases List.mem_map.mp hx with ⟨p, hp, hpx⟩
    rcases List.mem_filter.mp hp with ⟨hmem, hval⟩
    have : lookupA r.evictable p.1 = some p.2 :=
      lookupA_of_mem_nodup h.evNodup (by simpa using hmem)
    have hev : getEv r p.1 = true := by
      simp only [getEv, this]
      simpa using hval
    exact hpx ▸ h.histSub p.1 (h.evTrue p.1 hev)
  have hnd : ((r.evictable.filter (fun p => p.2)).map Prod.fst).Nodup :=
    ((List.filter_sublist _).map Prod.fst).nodup h.evNodup
  have h1 : size r = ((r.evictable.filter (fun p => p.2)).map Prod.fst).length := by
    simp [size]
  rw [h1, ← List.toFinset_card_of_nodup hnd]
  calc ((r.evictable.filter (fun p => p.2)).map Prod.fst).toFinset.card
      ≤ allowed.toFinset.card := by
        apply Finset.card_le_card
        intro x hx
        rw [List.mem_toFinset] at hx ⊢
        exact hsub x hx
    _ ≤ allowed.length := allowed.toFinset_card_le

theorem rinv_preserved {allowed : List Nat} {r : LRUKReplacer} (op : ROp)
    (h : RInv allowed r) (hop : ∀ f, f ∈ recFrames [op] → f ∈ allowed) :
    RInv allowed (applyROp r op) := by
  cases op with
  | record f =>
    have hf : f ∈ allowed := hop f (by simp [recFrames])
    simp only [applyROp, recordAccess]
    cases hl : lookupA r.accessHistory f with
    | none =>
      have hnot : f ∉ r.accessHistory.map Prod.fst := (lookupA_eq_none _ _).mp hl
      refine ⟨?_, h.evNodup, ?_, ?_⟩
      · simpa using (List.nodup_append.mpr ⟨h.histNodup, by simp, by simpa using hnot⟩)
      · intro g hg
        simp only [List.map_append] at hg
        rcases List.mem_append.mp hg with hg | hg
        · exact h.histSub g hg
        · simp at hg
          exact hg ▸ hf
      · intro g hg
        have := h.evTrue g hg
        simp only [List.map_append]
        exact List.mem_append.mpr (Or.inl this)
    | some hist =>
      refine ⟨?_, h.evNodup, ?_, ?_⟩
      · rw [map_fst_updateA]; exact h.histNodup
      · rw [map_fst_updateA]; exact h.histSub
      · intro g hg
        rw [map_fst_updateA]; exact h.evTrue g hg
  | setEv f b =>
    simp only [applyROp, setEvictable]
    cases hl : lookupA r.accessHistory f with
    | none => exact h
    | some hist =>
      by_cases hne : getEv r f ≠ b
      · simp only [if_pos hne]
        refine ⟨h.histNodup, nodup_setA _ _ _ h.evNodup, h.histSub, ?_⟩
        intro g hg
        by_cases hgf : g = f
        · subst hgf
          exact mem_of_lookupA_isSome (by rw [hl]; rfl)
        · apply h.evTrue g
          simpa [getEv, lookupA_setA_ne _ _ _ _ hgf] using hg
      · simp only [if_neg hne]; exact h
  | rm f =>
    simp only [applyROp, removeFrame]
    by_cases hc : (lookupA r.accessHistory f).isSome ∧ getEv r f
    · simp only [if_pos hc]
      refine ⟨((eraseA_sublist _ _).map Prod.fst).nodup h.histNodup,
        nodup_setA _ _ _ h.evNodup, ?_, ?_⟩
      · intro g hg
        exact h.histSub g (((eraseA_sublist _ _).map Prod.fst).mem hg)
      · intro g hg
        by_cases hgf : g = f
        · subst hgf
          simp [getEv, lookupA_setA_self] at hg
        · have : getEv r g = true := by
            simpa [getEv, lookupA_setA_ne _ _ _ _ hgf] using hg
          exact mem_map_fst_eraseA _ _ _ hgf (h.evTrue g this)
    · simp only [if_neg hc]; exact h
  | evictOp =>
    simp only [applyROp, evict]
    cases hst : (evictLoop r r.accessHistory (none, 0, 2 ^ 64 - 1, false)).1 with
    | none => exact h
    | some vid =>
      refine ⟨((eraseA_sublist _ _).map Prod.fst).nodup h.histNodup,
        nodup_setA _ _ _ h.evNodup, ?_, ?_⟩
      · intro g hg
        exact h.histSub g (((eraseA_sublist _ _).map Prod.fst).mem hg)
      · intro g hg
        by_cases hgf : g = vid
        · subst hgf
          simp [getEv, lookupA_setA_self] at hg
        · have : getEv r g = true := by
            simpa [getEv, lookupA_setA_ne _ _ _ _ hgf] using hg
          exact mem_map_fst_eraseA _ _ _ hgf (h.evTrue g this)

theorem rinv_runOps {allowed : List Nat} (ops : List ROp) :
    ∀ r : LRUKReplacer, RInv allowed r → (∀ f ∈ recFrames ops, f ∈ allowed) →
      RInv allowed (runOps r ops) := by
  induction ops with
  | nil => intro r h _; exact h
  | cons op rest ih =>
    intro r h hops
    have hop : ∀ f ∈ recFrames [op], f ∈ allowed := by
      intro f hf
      apply hops f
      cases op <;> simp_all [recFrames]
    have hrest : ∀ f ∈ recFrames rest, f ∈ allowed := by
      intro f hf
      apply hops f
      cases op <;> simp_all [recFrames]
    exact ih (applyROp r op) (rinv_preserved op h hop) hrest

theorem getEv_eq_true_iff (r : LRUKReplacer) (f : Nat) :
    getEv r f = true ↔ lookupA r.evictable f = some true := by
  cases h : lookupA r.evictable f with
  | none => simp [getEv, h]
  | some b => cases b <;> simp [getEv, h]

/-- C1 (status `code_bug`): on scenario R2 of the spec (`K = 2`, accesses
`1,2,1,2,3,1`, every frame evictable) the code's first `Evict` returns
frame 2 and the second returns frame 3, while the claim (and the LRU-K
documentation in the source's own header) requires frame 3 first — a frame
with fewer than K accesses must dominate — and frame 2 second.  The mixed
update of `latest_access_time` lets frame 2's finite distance survive the
comparison with frame 3's first-access timestamp. -/
theorem lruk_evict_scenarioR2_deviates :
    (evict scenarioR2).2 = some 2 ∧ (evict (evict scenarioR2).1).2 = some 3 := by
  decide

/-- C6 counterexample: a replacer of capacity 1 reaches `Size() = 2` after
recording two distinct frames and marking both evictable — nothing in the
code reads `replacer_size_`. -/
theorem lruk_size_capacity_counterexample :
    (newReplacer 1 2).replacerSize = 1 ∧
    size (runOps (newReplacer 1 2) c6ops) = 2 := by
  decide

/-- C6 amended: `0 ≤ Size() ≤ replacer_capacity` holds for every operation
sequence whose `RecordAccess` calls touch at most `replacer_capacity`
distinct frames (the set `allowed`). -/
theorem lruk_size_le_capacity (cap kk : Nat) (ops : List ROp) (allowed : List Nat)
    (hcap : 1 ≤ cap) (hall : allowed.length ≤ cap)
    (hops : ∀ f ∈ recFrames ops, f ∈ allowed) :
    0 ≤ size (runOps (newReplacer cap kk) ops) ∧
      size (runOps (newReplacer cap kk) ops) ≤ cap := by
  have h0 : RInv allowed (newReplacer cap kk) := by
    refine ⟨by simp [newReplacer], by simp [newReplacer], by simp [newReplacer], ?_⟩
    intro f hf
    simp [getEv, newReplacer, lookupA] at hf
  exact ⟨Nat.zero_le _, le_trans (size_le_of_rinv (rinv_runOps ops _ h0 hops)) hall⟩

theorem lruk_size_le_capacity_witness :
    0 ≤ size (runOps (newReplacer 1 2) [ROp.record 1, ROp.setEv 1 true]) ∧
      size (runOps (newReplacer 1 2) [ROp.record 1, ROp.setEv 1 true]) ≤ 1 :=
  lruk_size_le_capacity 1 2 [ROp.record 1, ROp.setEv 1 true] [1]
    (by decide) (by decide) (by decide)

/-- C7: `SetEvictable` on a frame with no recorded accesses is a complete
no-op, for either flag value: the state — hence `Size()`, F's untracked
status, and every other frame's history and flag — is unchanged. -/
theorem lruk_setEvictable_untracked (r : LRUKReplacer) (f : Nat) (flag : Bool)
    (h : lookupA r.accessHistory f = none) :
    setEvictable r f flag = r := by
  simp [setEvictable, h]

theorem lruk_setEvictable_untracked_witness :
    setEvictable (newReplacer 3 2) 5 true = newReplacer 3 2 ∧
      setEvictable (newReplacer 3 2) 5 false = newReplacer 3 2 :=
  ⟨lruk_setEvictable_untracked (newReplacer 3 2) 5 true (by decide),
   lruk_setEvictable_untracked (newReplacer 3 2) 5 false (by decide)⟩

/-- C8: `Remove(F)` leaves the state unchanged unless F is tracked and
evictable; when F is tracked and evictable it erases F's whole history,
leaves F untracked and non-evictable, decreases `Size()` by exactly one,
and leaves every other frame's history and flag unchanged.  (`WF` is the
key-uniqueness `std::unordered_map` provides by construction.) -/
theorem lruk_remove_spec (r : LRUKReplacer) (f : Nat) (hwf : WF r) :
    (¬ ((lookupA r.accessHistory f).isSome ∧ getEv r f = true) →
      removeFrame r f = r) ∧
    (((lookupA r.accessHistory f).isSome ∧ getEv r f = true) →
      lookupA (removeFrame r f).accessHistory f = none ∧
      getEv (removeFrame r f) f = false ∧
      size (removeFrame r f) + 1 = size r ∧
      ∀ f2, f2 ≠ f →
        lookupA (removeFrame r f).accessHistory f2 = lookupA r.accessHistory f2 ∧
        getEv (removeFrame r f) f2 = getEv r f2) := by
  constructor
  · intro hc
    simp only [removeFrame, if_neg hc]
  · intro hc
    have hrw : removeFrame r f =
        { r with accessHistory := eraseA r.accessHistory f,
                 evictable := setA r.evictable f false,
                 currSize := r.currSize - 1 } := by
      simp only [removeFrame, if_pos hc]
    have hev : lookupA r.evictable f = some true := (getEv_eq_true_iff r f).mp hc.2
    refine ⟨?_, ?_, ?_, ?_⟩
    · rw [hrw]
      exact lookupA_eraseA_self _ _ hwf.1
    · rw [hrw]
      simp [getEv, lookupA_setA_self]
    · rw [hrw]
      simpa [size] using size_setA_false r.evictable f hev
    · intro f2 hf2
      rw [hrw]
      exact ⟨lookupA_eraseA_ne _ _ _ hf2, by simp [getEv, lookupA_setA_ne _ _ _ _ hf2]⟩

theorem lruk_remove_spec_witness :
    lookupA (removeFrame c8state 1).accessHistory 1 = none ∧
      size (removeFrame c8state 1) + 1 = size c8state :=
  ⟨((lruk_remove_spec c8state 1 (by constructor <;> decide)).2 (by decide)).1,
   ((lruk_remove_spec c8state 1 (by constructor <;> decide)).2 (by decide)).2.2.1⟩

end LRUKReplacer

theorem getD_set_self {α : Type} (l : List α) (i : Nat) (a d : α) (h : i < l.length) :
    (l.set i a).getD i d = a := by
  rw [List.getD_eq_getElem?_getD, List.getElem?_set_self h]
  rfl

theorem getD_set_ne {α : Type} (l : List α) (i j : Nat) (a d : α) (h : i ≠ j) :
    (l.set i a).getD j d = l.getD j d := by
  rw [List.getD_eq_getElem?_getD, List.getElem?_set_ne h, ← List.getD_eq_getElem?_getD]

theorem getD_append_singleton {α : Type} (l : List α) (x d : α) (j : Nat) :
    (l ++ [x]).getD j d
      = if j < l.length then l.getD j d else if j = l.length then x else d := by
  by_cases h : j < l.length
  · rw [if_pos h]
    exact List.getD_append l [x] d j h
  · rw [if_neg h]
    push_neg at h
    rw [List.getD_append_right l [x] d j h]
    by_cases h2 : j = l.length
    · rw [if_pos h2, h2]
      simp [List.getD]
    · rw [if_neg h2]
      have h3 : 1 ≤ j - l.length := by omega
      cases h4 : j - l.length with
      | zero => omega
      | succ m => simp [List.getD]

theorem le_foldr_max (l : List Nat) : ∀ x ∈ l, x ≤ l.foldr max 0 := by
  induction l with
  | nil => intro x hx; simp at hx
  | cons a rest ih =>
    intro x hx
    rcases List.mem_cons.mp hx with h | h
    · rw [h]
      exact le_max_left _ _
    · exact le_trans (ih x h) (le_max_right _ _)

theorem mem_pair_of_mod {d origin x : Nat}
    (ho : origin < 2 ^ (d + 1)) (hx : x < 2 ^ (d + 1))
    (hmod : x % 2 ^ d = origin % 2 ^ d) :
    x = origin ∨ x = (if origin < 2 ^ d then origin + 2 ^ d else origin - 2 ^ d) := by
  have hc : 0 < 2 ^ d := Nat.two_pow_pos d
  have h2 : (2 : Nat) ^ (d + 1) = 2 ^ d * 2 := pow_succ 2 d
  have hxq : x / 2 ^ d < 2 := Nat.div_lt_of_lt_mul (h2 ▸ hx)
  have hoq : origin / 2 ^ d < 2 := Nat.div_lt_of_lt_mul (h2 ▸ ho)
  have hxe := Nat.div_add_mod x (2 ^ d)
  have hoe := Nat.div_add_mod origin (2 ^ d)
  have hxr : x % 2 ^ d < 2 ^ d := Nat.mod_lt x hc
  have hor : origin % 2 ^ d < 2 ^ d := Nat.mod_lt origin hc
  have hx01 : x / 2 ^ d = 0 ∨ x / 2 ^ d = 1 :=
    Nat.le_one_iff_eq_zero_or_eq_one.mp (Nat.lt_succ_iff.mp hxq)
  have ho01 : origin / 2 ^ d = 0 ∨ origin / 2 ^ d = 1 :=
    Nat.le_one_iff_eq_zero_or_eq_one.mp (Nat.lt_succ_iff.mp hoq)
  by_cases hlt : origin < 2 ^ d
  · rw [if_pos hlt]
    rcases hx01 with h | h <;> rcases ho01 with h3 | h3 <;>
      rw [h] at hxe <;> rw [h3] at hoe <;> omega
  · rw [if_neg hlt]
    rcases hx01 with h | h <;> rcases ho01 with h3 | h3 <;>
      rw [h] at hxe <;> rw [h3] at hoe <;> omega

theorem divide_ne {d origin : Nat} (ho : origin < 2 ^ (d + 1)) :
    (if origin < 2 ^ d then origin + 2 ^ d else origin - 2 ^ d) ≠ origin := by
  have hc : 0 < 2 ^ d := Nat.two_pow_pos d
  by_cases hlt : origin < 2 ^ d <;> simp [hlt] <;> omega

theorem divide_lt {d origin : Nat} (ho : origin < 2 ^ (d + 1)) :
    (if origin < 2 ^ d then origin + 2 ^ d else origin - 2 ^ d) < 2 ^ (d + 1) := by
  have hc : 0 < 2 ^ d := Nat.two_pow_pos d
  have h2 : (2 : Nat) ^ (d + 1) = 2 * 2 ^ d := by
    rw [pow_succ, Nat.mul_comm]
  by_cases hlt : origin < 2 ^ d <;> simp [hlt] <;> omega

theorem divide_mod {d origin : Nat} (ho : origin < 2 ^ (d + 1)) :
    (if origin < 2 ^ d then origin + 2 ^ d else origin - 2 ^ d) % 2 ^ d
      = origin % 2 ^ d := by
  have hc : 0 < 2 ^ d := Nat.two_pow_pos d
  by_cases hlt : origin < 2 ^ d
  · rw [if_pos hlt]
    exact Nat.add_mod_right origin (2 ^ d)
  · rw [if_neg hlt]
    push_neg at hlt
    conv_rhs => rw [← Nat.sub_add_cancel hlt]
    rw [Nat.add_mod_right]

namespace Bucket

variable {K V : Type} [DecidableEq K]

theorem overwriteFirst_eq_none (l : List (K × V)) (key : K) (v : V) :
    overwriteFirst l key v = none ↔ ∀ p ∈ l, p.1 ≠ key := by
  induction l with
  | nil => simp [overwriteFirst]
  | cons p rest ih =>
    by_cases h : p.1 = key
    · simp [overwriteFirst, h]
    · simp [overwriteFirst, h, ih]

theorem findVal_overwriteFirst (l : List (K × V)) (key : K) (v : V) :
    ∀ l2, overwriteFirst l key v = some l2 → findVal l2 key = some v := by
  induction l with
  | nil => intro l2 h; simp [overwriteFirst] at h
  | cons p rest ih =>
    intro l2 h
    by_cases hp : p.1 = key
    · simp only [overwriteFirst, if_pos hp, Option.some.injEq] at h
      rw [← h]
      simp [findVal, hp]
    · simp only [overwriteFirst, if_neg hp] at h
      cases hrest : overwriteFirst rest key v with
      | none => rw [hrest] at h; simp at h
      | some l3 =>
        rw [hrest] at h
        simp at h
        rw [← h]
        simp [findVal, hp, ih l3 hrest]

theorem findVal_append_self (l : List (K × V)) (key : K) (v : V)
    (h : ∀ p ∈ l, p.1 ≠ key) : findVal (l ++ [(key, v)]) key = some v := by
  induction l with
  | nil => simp [findVal]
  | cons p rest ih =>
    have hp : p.1 ≠ key := h p (by simp)
    simp only [List.cons_append, findVal, if_neg hp]
    exact ih (fun q hq => h q (by simp [hq]))

theorem overwriteFirst_of_findVal (l : List (K × V)) (key : K) (v0 v : V)
    (h : findVal l key = some v0) : ∃ l2, overwriteFirst l key v = some l2 := by
  induction l with
  | nil => simp [findVal] at h
  | cons p rest ih =>
    by_cases hp : p.1 = key
    · exact ⟨(p.1, v) :: rest, by simp [overwriteFirst, hp]⟩
    · simp only [findVal, if_neg hp] at h
      obtain ⟨l3, hl3⟩ := ih h
      exact ⟨p :: l3, by simp [overwriteFirst, hp, hl3]⟩

theorem insert_find_self (b : Bucket K V) (key : K) (v : V)
    (h : (b.insert key v).2 = true) : (b.insert key v).1.find key = some v := by
  cases ho : overwriteFirst b.list key v with
  | some l2 =>
    simp only [insert, ho, find]
    exact findVal_overwriteFirst b.list key v l2 ho
  | none =>
    by_cases hf : b.isFull = true
    · simp [insert, ho, hf] at h
    · simp only [insert, ho, Bool.not_eq_true] at hf ⊢
      rw [hf]
      simp only [Bool.false_eq_true, if_false, find]
      exact findVal_append_self b.list key v ((overwriteFirst_eq_none b.list key v).mp ho)

theorem insert_depth (b : Bucket K V) (key : K) (v : V) :
    (b.insert key v).1.depth = b.depth := by
  cases ho : overwriteFirst b.list key v <;>
    by_cases hf : b.isFull = true <;> simp [insert, ho, hf]

theorem insert_size (b : Bucket K V) (key : K) (v : V) :
    (b.insert key v).1.size = b.size := by
  cases ho : overwriteFirst b.list key v <;>
    by_cases hf : b.isFull = true <;> simp [insert, ho, hf]

theorem findVal_removeList_ne (l : List (K × V)) (key k2 : K)
    (h : k2 ≠ key) : findVal (removeList l key).1 k2 = findVal l k2 := by
  induction l with
  | nil => simp [removeList]
  | cons p rest ih =>
    by_cases hp : p.1 = key
    · have hpk : ¬ p.1 = k2 := fun h2 => h (h2.symm.trans hp)
      simp [removeList, hp, findVal, hpk, Ne.symm h]
    · simp only [removeList, if_neg hp, findVal]
      by_cases h2 : p.1 = k2 <;> simp [h2, ih]

theorem overwriteFirst_map_fst (l : List (K × V)) (key : K) (v : V) :
    ∀ l2, overwriteFirst l key v = some l2 → l2.map Prod.fst = l.map Prod.fst := by
  induction l with
  | nil => intro l2 h; simp [overwriteFirst] at h
  | cons p rest ih =>
    intro l2 h
    by_cases hp : p.1 = key
    · simp only [overwriteFirst, if_pos hp, Option.some.injEq] at h
      rw [← h]
      simp
    · simp only [overwriteFirst, if_neg hp] at h
      cases hrest : overwriteFirst rest key v with
      | none => rw [hrest] at h; simp at h
      | some l3 =>
        rw [hrest] at h
        simp at h
        rw [← h]
        simp [ih l3 hrest]

theorem overwriteFirst_mem (l : List (K × V)) (key : K) (v : V) :
    ∀ l2, overwriteFirst l key v = some l2 → ∀ p ∈ l2, p ∈ l ∨ p.1 = key := by
  induction l with
  | nil => intro l2 h; simp [overwriteFirst] at h
  | cons p rest ih =>
    intro l2 h q hq
    by_cases hp : p.1 = key
    · simp only [overwriteFirst, if_pos hp, Option.some.injEq] at h
      rw [← h] at hq
      rcases List.mem_cons.mp hq with h1 | h1
      · exact Or.inr (by rw [h1, hp])
      · exact Or.inl (List.mem_cons_of_mem p h1)
    · simp only [overwriteFirst, if_neg hp] at h
      cases hrest : overwriteFirst rest key v with
      | none => rw [hrest] at h; simp at h
      | some l3 =>
        rw [hrest] at h
        simp at h
        rw [← h] at hq
        rcases List.mem_cons.mp hq with h1 | h1
        · exact Or.inl (h1 ▸ List.mem_cons_self p rest)
        · rcases ih l3 hrest q h1 with h2 | h2
          · exact Or.inl (List.mem_cons_of_mem p h2)
          · exact Or.inr h2

theorem removeList_sublist (l : List (K × V)) (key : K) :
    (removeList l key).1.Sublist l := by
  induction l with
  | nil => simp [removeList]
  | cons p rest ih =>
    by_cases hp : p.1 = key
    · simp only [removeList, if_pos hp]
      exact List.sublist_cons_self p rest
    · simp only [removeList, if_neg hp]
      exact ih.cons₂ p

theorem removeList_append (kept : List (K × V)) (p : K × V) (rest : List (K × V))
    (h : ∀ q ∈ kept, q.1 ≠ p.1) :
    (removeList (kept ++ p :: rest) p.1).1 = kept ++ rest := by
  induction kept with
  | nil => simp [removeList]
  | cons q kept2 ih =>
    have hq : ¬ q.1 = p.1 := h q (List.mem_cons_self q kept2)
    simp only [List.cons_append, removeList, if_neg hq]
    congr 1
    exact ih (fun r hr => h r (List.mem_cons_of_mem q hr))

theorem insert_fresh_append (b : Bucket K V) (key : K) (v : V)
    (hno : ∀ p ∈ b.list, p.1 ≠ key) (hlen : b.list.length < b.size) :
    b.insert key v = ({ b with list := b.list ++ [(key, v)] }, true) := by
  have ho : overwriteFirst b.list key v = none := (overwriteFirst_eq_none _ _ _).mpr hno
  have hf : b.isFull = false := by
    simp [isFull, Nat.not_le.mpr hlen]
  simp [insert, ho, hf]

theorem insert_fails (b : Bucket K V) (key : K) (v : V)
    (h : (b.insert key v).2 = false) :
    (∀ p ∈ b.list, p.1 ≠ key) ∧ b.size ≤ b.list.length := by
  cases ho : overwriteFirst b.list key v with
  | some l2 => simp [insert, ho] at h
  | none =>
    refine ⟨(overwriteFirst_eq_none _ _ _).mp ho, ?_⟩
    by_cases hf : b.isFull = true
    · simpa [isFull] using hf
    · simp [insert, ho, hf] at h

theorem insert_mem (b : Bucket K V) (key : K) (v : V) :
    ∀ p ∈ (b.insert key v).1.list, p ∈ b.list ∨ p.1 = key := by
  intro p hp
  cases ho : overwriteFirst b.list key v with
  | some l2 =>
    rw [insert, ho] at hp
    exact overwriteFirst_mem b.list key v l2 ho p hp
  | none =>
    by_cases hf : b.isFull = true
    · rw [insert, ho, if_pos hf] at hp
      exact Or.inl hp
    · rw [insert, ho, if_neg hf] at hp
      rcases List.mem_append.mp hp with h1 | h1
      · exact Or.inl h1
      · have : p = (key, v) := by simpa using h1
        exact Or.inr (by rw [this])

theorem insert_nodup (b : Bucket K V) (key : K) (v : V)
    (hnd : (b.list.map Prod.fst).Nodup) :
    ((b.insert key v).1.list.map Prod.fst).Nodup := by
  cases ho : overwriteFirst b.list key v with
  | some l2 =>
    rw [insert, ho]
    rw [show ({ b with list := l2 } : Bucket K V).list = l2 from rfl,
      overwriteFirst_map_fst b.list key v l2 ho]
    exact hnd
  | none =>
    by_cases hf : b.isFull = true
    · rw [insert, ho, if_pos hf]
      exact hnd
    · rw [insert, ho, if_neg hf]
      have hfresh : key ∉ b.list.map Prod.fst := by
        intro hmem
        rcases List.mem_map.mp hmem with ⟨p, hp, hpk⟩
        exact (overwriteFirst_eq_none b.list key v).mp ho p hp hpk
      show ((b.list ++ [(key, v)]).map Prod.fst).Nodup
      rw [List.map_append]
      exact List.Nodup.append hnd (by simp) (by simpa using hfresh)

theorem insert_len_le (b : Bucket K V) (key : K) (v : V)
    (hl : b.list.length ≤ b.size) :
    (b.insert key v).1.list.length ≤ b.size := by
  cases ho : overwriteFirst b.list key v with
  | some l2 =>
    rw [insert, ho]
    show l2.length ≤ b.size
    have h2 := congrArg List.length (overwriteFirst_map_fst b.list key v l2 ho)
    simp only [List.length_map] at h2
    omega
  | none =>
    by_cases hf : b.isFull = true
    · rw [insert, ho, if_pos hf]
      exact hl
    · rw [insert, ho, if_neg hf]
      show (b.list ++ [(key, v)]).length ≤ b.size
      have hlt : b.list.length < b.size := by
        by_contra h2
        exact hf (by simp [isFull]; omega)
      simp only [List.length_append, List.length_cons, List.length_nil]
      omega

theorem insert_default_fails (key : K) (v : V) :
    ((⟨[], 0, 0⟩ : Bucket K V).insert key v).2 = false := by
  simp [insert, overwriteFirst, isFull]

theorem find_default_none (key : K) :
    (⟨[], 0, 0⟩ : Bucket K V).find key = none := by
  simp [find, findVal]

end Bucket

namespace HashTable

variable {K V : Type} [DecidableEq K]

theorem dirIdx_lt_of_insert_true (t : HashTable K V) (s : Nat) (key : K) (v : V)
    (h : ((t.bucketAt s).insert key v).2 = true) :
    t.dir.getD s 0 < t.buckets.length := by
  by_contra hge
  push_neg at hge
  have hd : t.bucketAt s = ⟨[], 0, 0⟩ := List.getD_eq_default _ _ hge
  rw [hd, Bucket.insert_default_fails] at h
  exact Bool.false_ne_true h

theorem dirIdx_lt_of_find_some (t : HashTable K V) (s : Nat) (key : K) (v : V)
    (h : (t.bucketAt s).find key = some v) :
    t.dir.getD s 0 < t.buckets.length := by
  by_contra hge
  push_neg at hge
  have hd : t.bucketAt s = ⟨[], 0, 0⟩ := List.getD_eq_default _ _ hge
  rw [hd, Bucket.find_default_none] at h
  exact Option.noConfusion h

theorem find_buckets_update (hash : K → Nat) (t : HashTable K V) (key : K)
    (bs : List (Bucket K V)) :
    find hash { t with buckets := bs } key
      = Bucket.find (bs.getD (t.dir.getD (t.indexOf hash key) 0) ⟨[], 0, 0⟩) key := rfl

theorem getD_set_preserve (l : List (Bucket K V)) (i j : Nat) (b : Bucket K V)
    (hi : i < l.length) (hdep : b.depth = (l.getD i ⟨[], 0, 0⟩).depth)
    (hsz : b.size = (l.getD i ⟨[], 0, 0⟩).size) :
    ((l.set i b).getD j ⟨[], 0, 0⟩).depth = (l.getD j ⟨[], 0, 0⟩).depth ∧
      ((l.set i b).getD j ⟨[], 0, 0⟩).size = (l.getD j ⟨[], 0, 0⟩).size := by
  by_cases hj : i = j
  · subst hj
    rw [getD_set_self _ _ _ _ hi]
    exact ⟨hdep, hsz⟩
  · rw [getD_set_ne _ _ _ _ _ hj]
    exact ⟨rfl, rfl⟩

theorem redistribute_spec (hash : K → Nat) (g d origin : Nat) :
    ∀ (l kept : List (K × V)) (ob db : Bucket K V),
      ob.list = kept ++ l →
      ((kept ++ l).map Prod.fst).Nodup →
      (∀ f ∈ db.list.map Prod.fst, f ∉ l.map Prod.fst) →
      db.list.length + l.length ≤ db.size →
      redistribute hash g d origin l (ob, db)
        = ({ ob with list :=
              (kept ++ l.filter (fun p => decide ((hash p.1 % 2 ^ g) % 2 ^ d = origin))) },
           { db with list :=
              (db.list ++ l.filter (fun p => decide (¬ (hash p.1 % 2 ^ g) % 2 ^ d = origin))) }) := by
  intro l
  induction l with
  | nil =>
    intro kept ob db hob hnd hdisj hlen
    have hk : kept = ob.list := by rw [hob, List.append_nil]
    simp only [redistribute, List.filter_nil, List.append_nil, ← hk]
    rw [hk]
  | cons p rest ih =>
    intro kept ob db hob hnd hdisj hlen
    have hpmem : p.1 ∈ (p :: rest).map Prod.fst := by simp
    by_cases hc : (hash p.1 % 2 ^ g) % 2 ^ d = origin
    · have hstep : redistribute hash g d origin (p :: rest) (ob, db)
          = redistribute hash g d origin rest (ob, db) := by
        simp [redistribute, hc]
      have hnd2 : (((kept ++ [p]) ++ rest).map Prod.fst).Nodup := by
        simpa [List.append_assoc] using hnd
      have hdisj2 : ∀ f ∈ db.list.map Prod.fst, f ∉ rest.map Prod.fst := by
        intro f hf hmem
        exact hdisj f hf (by simp [hmem])
      have hlen2 : db.list.length + rest.length ≤ db.size := by
        simp only [List.length_cons] at hlen
        omega
      rw [hstep, ih (kept ++ [p]) ob db (by rw [hob]; simp) hnd2 hdisj2 hlen2]
      simp [List.filter_cons, hc, List.append_assoc]
    · have hnd' : (kept.map Prod.fst ++ (p :: rest).map Prod.fst).Nodup := by
        rw [← List.map_append]
        exact hnd
      have hnda := List.nodup_append.mp hnd'
      have hpnr : p.1 ∉ rest.map Prod.fst := by
        have h1 := hnda.2.1
        rw [List.map_cons, List.nodup_cons] at h1
        exact h1.1
      have hknd : ∀ q ∈ kept, q.1 ≠ p.1 := by
        intro q hq he
        exact hnda.2.2 (List.mem_map_of_mem Prod.fst hq) (by rw [he]; exact hpmem)
      have hrem : (ob.remove p.1).1 = { ob with list := (kept ++ rest) } := by
        show ({ ob with list := (Bucket.removeList ob.list p.1).1 } : Bucket K V) = _
        rw [hob, Bucket.removeList_append kept p rest hknd]
      have hno : ∀ q ∈ db.list, q.1 ≠ p.1 := by
        intro q hq he
        exact hdisj q.1 (List.mem_map_of_mem Prod.fst hq) (by rw [he]; exact hpmem)
      have hlen3 : db.list.length < db.size := by
        simp only [List.length_cons] at hlen
        omega
      have hins : (db.insert p.1 p.2).1 = { db with list := (db.list ++ [p]) } := by
        rw [Bucket.insert_fresh_append db p.1 p.2 hno hlen3]
      have hstep : redistribute hash g d origin (p :: rest) (ob, db)
          = redistribute hash g d origin rest ((ob.remove p.1).1, (db.insert p.1 p.2).1) := by
        simp [redistribute, hc]
      have hnd4 : ((kept ++ rest).map Prod.fst).Nodup := by
        refine List.Nodup.sublist (List.Sublist.map Prod.fst ?_) hnd
        exact List.Sublist.append_left (List.sublist_cons_self p rest) kept
      have hdisj4 : ∀ f ∈ (db.list ++ [p]).map Prod.fst, f ∉ rest.map Prod.fst := by
        intro f hf hmem
        rw [List.map_append] at hf
        rcases List.mem_append.mp hf with h1 | h1
        · exact hdisj f h1 (by simp [hmem])
        · have hf2 : f = p.1 := by simpa using h1
          exact hpnr (hf2 ▸ hmem)
      have hlen4 : (db.list ++ [p]).length + rest.length ≤ db.size := by
        simp only [List.length_append, List.length_cons, List.length_nil] at hlen ⊢
        omega
      rw [hstep, hrem, hins,
        ih kept { ob with list := (kept ++ rest) } { db with list := (db.list ++ [p]) }
          rfl hnd4 hdisj4 hlen4]
      simp [List.filter_cons, hc, List.append_assoc]

theorem Inv.dirPtr_lt {hash : K → Nat} {t : HashTable K V} (h : Inv hash t)
    {s : Nat} (hs : s < t.dir.length) : t.dir.getD s 0 < t.buckets.length := by
  apply h.dirValid
  rw [List.getD_eq_getElem _ _ hs]
  exact List.getElem_mem hs

theorem Inv.bucketAt_mem {hash : K → Nat} {t : HashTable K V} (h : Inv hash t)
    {s : Nat} (hs : s < t.dir.length) : t.bucketAt s ∈ t.buckets := by
  show t.buckets.getD (t.dir.getD s 0) ⟨[], 0, 0⟩ ∈ t.buckets
  rw [List.getD_eq_getElem _ _ (h.dirPtr_lt hs)]
  exact List.getElem_mem (h.dirPtr_lt hs)

theorem Inv.index_lt {hash : K → Nat} {t : HashTable K V} (h : Inv hash t) (key : K) :
    t.indexOf hash key < t.dir.length := by
  rw [h.dirLen]
  exact Nat.mod_lt _ (Nat.two_pow_pos _)

theorem inv_newTable (hash : K → Nat) (cap : Nat) (hcap : 0 < cap) :
    Inv hash (newTable cap : HashTable K V) := by
  have hone : ∀ s : Nat, s < (newTable cap : HashTable K V).dir.length → s = 0 := by
    intro s hs
    simpa [newTable] using Nat.lt_one_iff.mp (by simpa [newTable] using hs)
  refine ⟨rfl, ?_, hcap, ?_, ?_, ?_, ?_, ?_, ?_, ?_⟩
  · intro s hs
    simp only [newTable, List.mem_singleton] at hs
    simp [newTable, hs]
  · intro b hb
    simp only [newTable, List.mem_singleton] at hb
    simp [newTable, hb]
  · intro b hb
    simp only [newTable, List.mem_singleton] at hb
    simp [hb]
  · intro b hb
    simp only [newTable, List.mem_singleton] at hb
    simp [hb]
  · intro s hs
    rw [hone s hs]
    simp [newTable, bucketAt, List.getD]
  · intro s hs p hp
    rw [hone s hs] at hp
    simp [newTable, bucketAt, List.getD] at hp
  · intro s hs s2 hs2 _
    rw [hone s hs, hone s2 hs2]
  · intro s hs s2 hs2 _
    rw [hone s hs, hone s2 hs2]

theorem bucketAt_update (t : HashTable K V) (bidx : Nat) (nb : Bucket K V)
    (hbidx : bidx < t.buckets.length) (s : Nat) :
    ({ t with buckets := (t.buckets.set bidx nb) } : HashTable K V).bucketAt s
      = if t.dir.getD s 0 = bidx then nb else t.bucketAt s := by
  show (t.buckets.set bidx nb).getD (t.dir.getD s 0) ⟨[], 0, 0⟩ = _
  by_cases h : t.dir.getD s 0 = bidx
  · rw [if_pos h, h, getD_set_self _ _ _ _ hbidx]
  · rw [if_neg h, getD_set_ne _ _ _ _ _ (fun h2 => h h2.symm)]
    rfl

theorem inv_insert_success (hash : K → Nat) {t : HashTable K V} (key : K) (v : V)
    (hInv : Inv hash t)
    (hr : ((t.bucketAt (t.indexOf hash key)).insert key v).2 = true) :
    Inv hash ({ t with buckets :=
      (t.buckets.set (t.dir.getD (t.indexOf hash key) 0)
        ((t.bucketAt (t.indexOf hash key)).insert key v).1) } : HashTable K V) := by
  have hidx : t.indexOf hash key < t.dir.length := hInv.index_lt key
  have hbidx : t.dir.getD (t.indexOf hash key) 0 < t.buckets.length := hInv.dirPtr_lt hidx
  have hbmem : t.bucketAt (t.indexOf hash key) ∈ t.buckets := hInv.bucketAt_mem hidx
  have hbat := bucketAt_update t (t.dir.getD (t.indexOf hash key) 0)
    ((t.bucketAt (t.indexOf hash key)).insert key v).1 hbidx
  have hbeq : ∀ s, t.dir.getD s 0 = t.dir.getD (t.indexOf hash key) 0 →
      t.bucketAt s = t.bucketAt (t.indexOf hash key) := by
    intro s hs
    unfold bucketAt
    rw [hs]
  have hdep : ∀ s,
      (({ t with buckets :=
        (t.buckets.set (t.dir.getD (t.indexOf hash key) 0)
          ((t.bucketAt (t.indexOf hash key)).insert key v).1) } : HashTable K V).bucketAt s).depth
      = (t.bucketAt s).depth := by
    intro s
    rw [hbat s]
    by_cases h : t.dir.getD s 0 = t.dir.getD (t.indexOf hash key) 0
    · rw [if_pos h, Bucket.insert_depth, hbeq s h]
    · rw [if_neg h]
  refine ⟨hInv.dirLen, ?_, hInv.capPos, ?_, ?_, ?_, ?_, ?_, ?_, ?_⟩
  · intro s hs
    rw [List.length_set]
    exact hInv.dirValid s hs
  · intro b hb
    rcases List.mem_or_eq_of_mem_set hb with h1 | h1
    · exact hInv.sizeEq b h1
    · rw [h1, Bucket.insert_size]
      exact hInv.sizeEq _ hbmem
  · intro b hb
    rcases List.mem_or_eq_of_mem_set hb with h1 | h1
    · exact hInv.lenLe b h1
    · rw [h1, Bucket.insert_size]
      exact Bucket.insert_len_le _ key v (hInv.lenLe _ hbmem)
  · intro b hb
    rcases List.mem_or_eq_of_mem_set hb with h1 | h1
    · exact hInv.keysNodup b h1
    · rw [h1]
      exact Bucket.insert_nodup _ key v (hInv.keysNodup _ hbmem)
  · intro s hs
    rw [hdep s]
    exact hInv.depthLe s hs
  · intro s hs p hp
    rw [hdep s]
    rw [hbat s] at hp
    by_cases h : t.dir.getD s 0 = t.dir.getD (t.indexOf hash key) 0
    · rw [if_pos h] at hp
      have hd : (t.bucketAt s).depth = (t.bucketAt (t.indexOf hash key)).depth := by
        rw [hbeq s h]
      rcases Bucket.insert_mem _ key v p hp with h1 | h1
      · have := hInv.coh s hs p (by rw [hbeq s h]; exact h1)
        exact this
      · rw [h1, hd]
        have hle : (t.bucketAt (t.indexOf hash key)).depth ≤ t.globalDepth := by
          have := hInv.depthLe (t.indexOf hash key) hidx
          exact this
        have hmod : hash key % 2 ^ (t.bucketAt (t.indexOf hash key)).depth
            = t.indexOf hash key % 2 ^ (t.bucketAt (t.indexOf hash key)).depth := by
          show _ = hash key % 2 ^ t.globalDepth % 2 ^ (t.bucketAt (t.indexOf hash key)).depth
          rw [Nat.mod_mod_of_dvd _ (pow_dvd_pow 2 hle)]
        rw [hmod]
        have := hInv.sameIdx s hs (t.indexOf hash key) hidx h.symm
        rw [hd] at this
        exact this
    · rw [if_neg h] at hp
      exact hInv.coh s hs p hp
  · intro s hs s2 hs2 hmod
    rw [hdep s] at hmod
    exact hInv.sameClass s hs s2 hs2 hmod
  · intro s hs s2 hs2 heq
    rw [hdep s]
    exact hInv.sameIdx s hs s2 hs2 heq

theorem splitAssembled_spec (hash : K → Nat) (key : K) (t1 T : HashTable K V)
    (SZ index bidx : Nat) (b OB DB : Bucket K V)
    (hInv : Inv hash t1)
    (hidx : index < t1.dir.length)
    (hptr : t1.dir.getD index 0 = bidx)
    (hb : t1.bucketAt index = b)
    (hSZ : SZ = t1.bucketSize)
    (hd1 : b.depth + 1 ≤ t1.globalDepth)
    (hOB : OB = ⟨b.list.filter
        (fun p => decide ((hash p.1 % 2 ^ t1.globalDepth) % 2 ^ (b.depth + 1)
          = index % 2 ^ (b.depth + 1))), b.size, b.depth + 1⟩)
    (hDB : DB = ⟨b.list.filter
        (fun p => decide (¬ (hash p.1 % 2 ^ t1.globalDepth) % 2 ^ (b.depth + 1)
          = index % 2 ^ (b.depth + 1))), SZ, b.depth + 1⟩)
    (hTg : T.globalDepth = t1.globalDepth)
    (hTsz : T.bucketSize = SZ)
    (hTb : T.buckets = (t1.buckets.set bidx OB ++ [DB]))
    (hTd : T.dir = ((List.range t1.dir.length).map (fun s =>
      if s % 2 ^ (b.depth + 1) = index % 2 ^ (b.depth + 1) then bidx
      else if s % 2 ^ (b.depth + 1)
          = (if index % 2 ^ (b.depth + 1) < 2 ^ b.depth
             then index % 2 ^ (b.depth + 1) + 2 ^ b.depth
             else index % 2 ^ (b.depth + 1) - 2 ^ b.depth)
        then t1.buckets.length
      else t1.dir.getD s 0))) :
    Inv hash T ∧
    (∀ s2, s2 < t1.dir.length →
      (s2 % 2 ^ (b.depth + 1) = index % 2 ^ (b.depth + 1) ∨
        s2 % 2 ^ (b.depth + 1)
          = (if index % 2 ^ (b.depth + 1) < 2 ^ b.depth
             then index % 2 ^ (b.depth + 1) + 2 ^ b.depth
             else index % 2 ^ (b.depth + 1) - 2 ^ b.depth)) →
      (T.bucketAt s2).depth = b.depth + 1 ∧
        ∀ p ∈ (T.bucketAt s2).list, p ∈ b.list) := by
  have hbmem : b ∈ t1.buckets := hb ▸ hInv.bucketAt_mem hidx
  have hbsize : b.size = t1.bucketSize := hInv.sizeEq b hbmem
  have hblen : b.list.length ≤ b.size := hInv.lenLe b hbmem
  have hbidx : bidx < t1.buckets.length := hptr ▸ hInv.dirPtr_lt hidx
  have hdge : b.depth ≤ t1.globalDepth := Nat.le_of_succ_le hd1
  have hdvd : (2 : Nat) ^ b.depth ∣ 2 ^ (b.depth + 1) :=
    pow_dvd_pow 2 (Nat.le_succ _)
  have hdvd2 : (2 : Nat) ^ (b.depth + 1) ∣ 2 ^ t1.globalDepth := pow_dvd_pow 2 hd1
  have hdvd3 : (2 : Nat) ^ b.depth ∣ 2 ^ t1.globalDepth := pow_dvd_pow 2 hdge
  have horig_lt : index % 2 ^ (b.depth + 1) < 2 ^ (b.depth + 1) :=
    Nat.mod_lt _ (Nat.two_pow_pos _)
  have hdiv_ne := divide_ne (d := b.depth) horig_lt
  have hdiv_mod := divide_mod (d := b.depth) horig_lt
  have horig_mod : index % 2 ^ (b.depth + 1) % 2 ^ b.depth = index % 2 ^ b.depth :=
    Nat.mod_mod_of_dvd index hdvd
  have hTdlen : T.dir.length = t1.dir.length := by
    rw [hTd, List.length_map, List.length_range]
  have hdirget : ∀ s2, s2 < t1.dir.length →
      T.dir.getD s2 0
        = (if s2 % 2 ^ (b.depth + 1) = index % 2 ^ (b.depth + 1) then bidx
           else if s2 % 2 ^ (b.depth + 1)
               = (if index % 2 ^ (b.depth + 1) < 2 ^ b.depth
                  then index % 2 ^ (b.depth + 1) + 2 ^ b.depth
                  else index % 2 ^ (b.depth + 1) - 2 ^ b.depth)
             then t1.buckets.length
           else t1.dir.getD s2 0) := by
    intro s2 hs2
    rw [hTd, List.getD_eq_getElem _ _ (by simpa using hs2)]
    rw [List.getElem_map, List.getElem_range]
  have hS1 : ∀ s2, s2 < t1.dir.length →
      (t1.dir.getD s2 0 = bidx ↔ s2 % 2 ^ b.depth = index % 2 ^ b.depth) := by
    intro s2 hs2
    constructor
    · intro he
      have h4 := hInv.sameIdx index hidx s2 hs2 (by rw [he, hptr])
      rw [hb] at h4
      exact h4
    · intro hmod
      have h4 := hInv.sameClass index hidx s2 hs2 (by rw [hb]; exact hmod)
      rw [h4, hptr]
  have hout : ∀ s2, s2 < t1.dir.length →
      ¬ s2 % 2 ^ (b.depth + 1) = index % 2 ^ (b.depth + 1) →
      ¬ s2 % 2 ^ (b.depth + 1)
          = (if index % 2 ^ (b.depth + 1) < 2 ^ b.depth
             then index % 2 ^ (b.depth + 1) + 2 ^ b.depth
             else index % 2 ^ (b.depth + 1) - 2 ^ b.depth) →
      t1.dir.getD s2 0 ≠ bidx := by
    intro s2 hs2 h1 h2 he
    have hmod : s2 % 2 ^ b.depth = index % 2 ^ b.depth := (hS1 s2 hs2).mp he
    have hx : s2 % 2 ^ (b.depth + 1) % 2 ^ b.depth
        = index % 2 ^ (b.depth + 1) % 2 ^ b.depth := by
      rw [Nat.mod_mod_of_dvd _ hdvd, Nat.mod_mod_of_dvd _ hdvd]
      exact hmod
    rcases mem_pair_of_mod horig_lt (Nat.mod_lt _ (Nat.two_pow_pos _)) hx with h3 | h3
    · exact h1 h3
    · exact h2 h3
  have hbat2 : ∀ s2, s2 < t1.dir.length →
      T.bucketAt s2
        = (if s2 % 2 ^ (b.depth + 1) = index % 2 ^ (b.depth + 1) then OB
           else if s2 % 2 ^ (b.depth + 1)
               = (if index % 2 ^ (b.depth + 1) < 2 ^ b.depth
                  then index % 2 ^ (b.depth + 1) + 2 ^ b.depth
                  else index % 2 ^ (b.depth + 1) - 2 ^ b.depth)
             then DB
           else t1.bucketAt s2) := by
    intro s2 hs2
    unfold bucketAt
    rw [hdirget s2 hs2, hTb]
    by_cases h1 : s2 % 2 ^ (b.depth + 1) = index % 2 ^ (b.depth + 1)
    · rw [if_pos h1, if_pos h1]
      rw [getD_append_singleton]
      rw [if_pos (by rw [List.length_set]; exact hbidx)]
      rw [getD_set_self _ _ _ _ hbidx]
    · rw [if_neg h1, if_neg h1]
      by_cases h2 : s2 % 2 ^ (b.depth + 1)
          = (if index % 2 ^ (b.depth + 1) < 2 ^ b.depth
             then index % 2 ^ (b.depth + 1) + 2 ^ b.depth
             else index % 2 ^ (b.depth + 1) - 2 ^ b.depth)
      · rw [if_pos h2, if_pos h2]
        rw [getD_append_singleton]
        rw [if_neg (by rw [List.length_set]; omega), if_pos (by rw [List.length_set])]
      · rw [if_neg h2, if_neg h2]
        have hj : t1.dir.getD s2 0 ≠ bidx := hout s2 hs2 h1 h2
        have hjlt : t1.dir.getD s2 0 < t1.buckets.length := hInv.dirPtr_lt hs2
        rw [getD_append_singleton]
        rw [if_pos (by rw [List.length_set]; exact hjlt)]
        rw [getD_set_ne _ _ _ _ _ (fun h3 => hj h3.symm)]
  have hentry : ∀ p ∈ b.list,
      (hash p.1 % 2 ^ t1.globalDepth) % 2 ^ (b.depth + 1) = index % 2 ^ (b.depth + 1) ∨
      (hash p.1 % 2 ^ t1.globalDepth) % 2 ^ (b.depth + 1)
        = (if index % 2 ^ (b.depth + 1) < 2 ^ b.depth
           then index % 2 ^ (b.depth + 1) + 2 ^ b.depth
           else index % 2 ^ (b.depth + 1) - 2 ^ b.depth) := by
    intro p hp
    have hcohp := hInv.coh index hidx p (by rw [hb]; exact hp)
    rw [hb] at hcohp
    apply mem_pair_of_mod horig_lt (Nat.mod_lt _ (Nat.two_pow_pos _))
    rw [Nat.mod_mod_of_dvd _ hdvd, Nat.mod_mod_of_dvd _ hdvd, Nat.mod_mod_of_dvd _ hdvd3]
    exact hcohp
  constructor
  · refine ⟨?_, ?_, ?_, ?_, ?_, ?_, ?_, ?_, ?_, ?_⟩
    · rw [hTdlen, hTg, hInv.dirLen]
    · intro s hs
      rw [hTd] at hs
      rw [hTb, List.length_append, List.length_set]
      rcases List.mem_map.mp hs with ⟨s2, hs2, hfs⟩
      rw [← hfs]
      by_cases h1 : s2 % 2 ^ (b.depth + 1) = index % 2 ^ (b.depth + 1)
      · rw [if_pos h1]
        simp only [List.length_cons, List.length_nil]
        omega
      · rw [if_neg h1]
        by_cases h2 : s2 % 2 ^ (b.depth + 1)
            = (if index % 2 ^ (b.depth + 1) < 2 ^ b.depth
               then index % 2 ^ (b.depth + 1) + 2 ^ b.depth
               else index % 2 ^ (b.depth + 1) - 2 ^ b.depth)
        · rw [if_pos h2]
          simp
        · rw [if_neg h2]
          have h3 := hInv.dirPtr_lt (List.mem_range.mp hs2)
          simp only [List.length_cons, List.length_nil]
          omega
    · rw [hTsz, hSZ]
      exact hInv.capPos
    · intro c hc
      rw [hTb] at hc
      rw [hTsz]
      rcases List.mem_append.mp hc with h1 | h1
      · rcases List.mem_or_eq_of_mem_set h1 with h2 | h2
        · rw [hInv.sizeEq c h2, hSZ]
        · rw [h2, hOB, hbsize, hSZ]
      · rw [show c = DB from by simpa using h1, hDB]
    · intro c hc
      rw [hTb] at hc
      rcases List.mem_append.mp hc with h1 | h1
      · rcases List.mem_or_eq_of_mem_set h1 with h2 | h2
        · exact hInv.lenLe c h2
        · rw [h2, hOB]
          exact le_trans (List.length_filter_le _ _) hblen
      · rw [show c = DB from by simpa using h1, hDB]
        show (b.list.filter _).length ≤ SZ
        rw [hSZ, ← hbsize]
        exact le_trans (List.length_filter_le _ _) hblen
    · intro c hc
      rw [hTb] at hc
      rcases List.mem_append.mp hc with h1 | h1
      · rcases List.mem_or_eq_of_mem_set h1 with h2 | h2
        · exact hInv.keysNodup c h2
        · rw [h2, hOB]
          exact ((List.filter_sublist _).map Prod.fst).nodup (hInv.keysNodup b hbmem)
      · rw [show c = DB from by simpa using h1, hDB]
        exact ((List.filter_sublist _).map Prod.fst).nodup (hInv.keysNodup b hbmem)
    · intro s hs
      have hs' : s < t1.dir.length := by rw [← hTdlen]; exact hs
      rw [hbat2 s hs', hTg]
      by_cases h1 : s % 2 ^ (b.depth + 1) = index % 2 ^ (b.depth + 1)
      · rw [if_pos h1, hOB]
        exact hd1
      · rw [if_neg h1]
        by_cases h2 : s % 2 ^ (b.depth + 1)
            = (if index % 2 ^ (b.depth + 1) < 2 ^ b.depth
               then index % 2 ^ (b.depth + 1) + 2 ^ b.depth
               else index % 2 ^ (b.depth + 1) - 2 ^ b.depth)
        · rw [if_pos h2, hDB]
          exact hd1
        · rw [if_neg h2]
          exact hInv.depthLe s hs'
    · intro s hs p hp
      have hs' : s < t1.dir.length := by rw [← hTdlen]; exact hs
      rw [hbat2 s hs'] at hp ⊢
      by_cases h1 : s % 2 ^ (b.depth + 1) = index % 2 ^ (b.depth + 1)
      · rw [if_pos h1] at hp ⊢
        rw [hOB] at hp ⊢
        have h3 := List.mem_filter.mp hp
        have hcond := of_decide_eq_true h3.2
        show hash p.1 % 2 ^ (b.depth + 1) = s % 2 ^ (b.depth + 1)
        rw [← Nat.mod_mod_of_dvd (hash p.1) hdvd2, hcond, h1]
      · rw [if_neg h1] at hp ⊢
        by_cases h2 : s % 2 ^ (b.depth + 1)
            = (if index % 2 ^ (b.depth + 1) < 2 ^ b.depth
               then index % 2 ^ (b.depth + 1) + 2 ^ b.depth
               else index % 2 ^ (b.depth + 1) - 2 ^ b.depth)
        · rw [if_pos h2] at hp ⊢
          rw [hDB] at hp ⊢
          have h3 := List.mem_filter.mp hp
          have hcond := of_decide_eq_true h3.2
          show hash p.1 % 2 ^ (b.depth + 1) = s % 2 ^ (b.depth + 1)
          rcases hentry p h3.1 with h4 | h4
          · exact absurd h4 hcond
          · rw [← Nat.mod_mod_of_dvd (hash p.1) hdvd2, h4, h2]
        · rw [if_neg h2] at hp ⊢
          exact hInv.coh s hs' p hp
    · intro s hs s2 hs2 hmod
      have hs' : s < t1.dir.length := by rw [← hTdlen]; exact hs
      have hs2' : s2 < t1.dir.length := by rw [← hTdlen]; exact hs2
      rw [hbat2 s hs'] at hmod
      rw [hdirget s hs', hdirget s2 hs2']
      by_cases h1 : s % 2 ^ (b.depth + 1) = index % 2 ^ (b.depth + 1)
      · rw [if_pos h1] at hmod
        rw [hOB] at hmod
        have hmod2 : s2 % 2 ^ (b.depth + 1) = index % 2 ^ (b.depth + 1) := by
          rw [show s2 % 2 ^ (b.depth + 1) = s % 2 ^ (b.depth + 1) from hmod, h1]
        rw [if_pos h1, if_pos hmod2]
      · rw [if_neg h1] at hmod
        by_cases h2 : s % 2 ^ (b.depth + 1)
            = (if index % 2 ^ (b.depth + 1) < 2 ^ b.depth
               then index % 2 ^ (b.depth + 1) + 2 ^ b.depth
               else index % 2 ^ (b.depth + 1) - 2 ^ b.depth)
        · rw [if_pos h2] at hmod
          rw [hDB] at hmod
          have hmod2 : s2 % 2 ^ (b.depth + 1)
              = (if index % 2 ^ (b.depth + 1) < 2 ^ b.depth
                 then index % 2 ^ (b.depth + 1) + 2 ^ b.depth
                 else index % 2 ^ (b.depth + 1) - 2 ^ b.depth) := by
            rw [show s2 % 2 ^ (b.depth + 1) = s % 2 ^ (b.depth + 1) from hmod, h2]
          have hmod2ne : ¬ s2 % 2 ^ (b.depth + 1) = index % 2 ^ (b.depth + 1) := by
            rw [hmod2]
            intro h3
            exact hdiv_ne h3
          rw [if_neg h1, if_pos h2, if_neg hmod2ne, if_pos hmod2]
        · rw [if_neg h2] at hmod
          have hj := hout s hs' h1 h2
          have hclass := hInv.sameClass s hs' s2 hs2' hmod
          have hs2n1 : ¬ s2 % 2 ^ (b.depth + 1) = index % 2 ^ (b.depth + 1) := by
            intro h3
            apply hj
            rw [← hclass]
            apply (hS1 s2 hs2').mpr
            rw [← Nat.mod_mod_of_dvd s2 hdvd, h3, horig_mod]
          have hs2n2 : ¬ s2 % 2 ^ (b.depth + 1)
              = (if index % 2 ^ (b.depth + 1) < 2 ^ b.depth
                 then index % 2 ^ (b.depth + 1) + 2 ^ b.depth
                 else index % 2 ^ (b.depth + 1) - 2 ^ b.depth) := by
            intro h3
            apply hj
            rw [← hclass]
            apply (hS1 s2 hs2').mpr
            rw [← Nat.mod_mod_of_dvd s2 hdvd, h3, hdiv_mod, horig_mod]
          rw [if_neg h1, if_neg h2, if_neg hs2n1, if_neg hs2n2]
          exact hclass
    · intro s hs s2 hs2 heq
      have hs' : s < t1.dir.length := by rw [← hTdlen]; exact hs
      have hs2' : s2 < t1.dir.length := by rw [← hTdlen]; exact hs2
      rw [hdirget s hs', hdirget s2 hs2'] at heq
      rw [hbat2 s hs']
      by_cases h1 : s % 2 ^ (b.depth + 1) = index % 2 ^ (b.depth + 1)
      · rw [if_pos h1] at heq ⊢
        rw [hOB]
        show s2 % 2 ^ (b.depth + 1) = s % 2 ^ (b.depth + 1)
        by_cases h3 : s2 % 2 ^ (b.depth + 1) = index % 2 ^ (b.depth + 1)
        · rw [h3, h1]
        · rw [if_neg h3] at heq
          by_cases h4 : s2 % 2 ^ (b.depth + 1)
              = (if index % 2 ^ (b.depth + 1) < 2 ^ b.depth
                 then index % 2 ^ (b.depth + 1) + 2 ^ b.depth
                 else index % 2 ^ (b.depth + 1) - 2 ^ b.depth)
          · rw [if_pos h4] at heq
            omega
          · rw [if_neg h4] at heq
            exact absurd heq (hout s2 hs2' h3 h4)
      · rw [if_neg h1] at heq ⊢
        by_cases h2 : s % 2 ^ (b.depth + 1)
            = (if index % 2 ^ (b.depth + 1) < 2 ^ b.depth
               then index % 2 ^ (b.depth + 1) + 2 ^ b.depth
               else index % 2 ^ (b.depth + 1) - 2 ^ b.depth)
        · rw [if_pos h2] at heq ⊢
          rw [hDB]
          show s2 % 2 ^ (b.depth + 1) = s % 2 ^ (b.depth + 1)
          by_cases h3 : s2 % 2 ^ (b.depth + 1) = index % 2 ^ (b.depth + 1)
          · rw [if_pos h3] at heq
            omega
          · rw [if_neg h3] at heq
            by_cases h4 : s2 % 2 ^ (b.depth + 1)
                = (if index % 2 ^ (b.depth + 1) < 2 ^ b.depth
                   then index % 2 ^ (b.depth + 1) + 2 ^ b.depth
                   else index % 2 ^ (b.depth + 1) - 2 ^ b.depth)
            · rw [h4, h2]
            · rw [if_neg h4] at heq
              have h5 := hInv.dirPtr_lt hs2'
              omega
        · rw [if_neg h2] at heq ⊢
          by_cases h3 : s2 % 2 ^ (b.depth + 1) = index % 2 ^ (b.depth + 1)
          · rw [if_pos h3] at heq
            exact absurd heq.symm (hout s hs' h1 h2)
          · rw [if_neg h3] at heq
            by_cases h4 : s2 % 2 ^ (b.depth + 1)
                = (if index % 2 ^ (b.depth + 1) < 2 ^ b.depth
                   then index % 2 ^ (b.depth + 1) + 2 ^ b.depth
                   else index % 2 ^ (b.depth + 1) - 2 ^ b.depth)
            · rw [if_pos h4] at heq
              have h5 := hInv.dirPtr_lt hs'
              omega
            · rw [if_neg h4] at heq
              exact hInv.sameIdx s hs' s2 hs2' heq
  · intro s2 hs2 hcls
    rw [hbat2 s2 hs2]
    by_cases h0 : s2 % 2 ^ (b.depth + 1) = index % 2 ^ (b.depth + 1)
    · rw [if_pos h0, hOB]
      exact ⟨rfl, fun p hp => (List.mem_filter.mp hp).1⟩
    · rcases hcls with h1 | h1
      · exact absurd h1 h0
      · rw [if_neg h0, if_pos h1, hDB]
        exact ⟨rfl, fun p hp => (List.mem_filter.mp hp).1⟩

theorem double_getD (t : HashTable K V) (hlen : t.dir.length = 2 ^ t.globalDepth)
    (s : Nat) (hs : s < 2 ^ (t.globalDepth + 1)) :
    (t.dir ++ t.dir).getD s 0 = t.dir.getD (s % 2 ^ t.globalDepth) 0 := by
  have h2 : (2 : Nat) ^ (t.globalDepth + 1) = 2 ^ t.globalDepth * 2 := pow_succ 2 _
  by_cases h : s < 2 ^ t.globalDepth
  · rw [Nat.mod_eq_of_lt h]
    exact List.getD_append _ _ _ _ (by rw [hlen]; exact h)
  · push_neg at h
    rw [List.getD_append_right _ _ _ _ (by rw [hlen]; exact h)]
    rw [hlen, Nat.mod_eq_sub_mod h, Nat.mod_eq_of_lt (by omega)]

theorem inv_double (hash : K → Nat) {t : HashTable K V} (hInv : Inv hash t) :
    Inv hash ({ t with globalDepth := t.globalDepth + 1, dir := (t.dir ++ t.dir) } : HashTable K V) := by
  have hlen1 : (t.dir ++ t.dir).length = 2 ^ (t.globalDepth + 1) := by
    rw [List.length_append, hInv.dirLen, pow_succ]
    omega
  have hsm : ∀ s : Nat, s % 2 ^ t.globalDepth < t.dir.length := by
    intro s
    rw [hInv.dirLen]
    exact Nat.mod_lt _ (Nat.two_pow_pos _)
  have hget : ∀ s, s < 2 ^ (t.globalDepth + 1) →
      (t.dir ++ t.dir).getD s 0 = t.dir.getD (s % 2 ^ t.globalDepth) 0 :=
    double_getD t hInv.dirLen
  have hbat : ∀ s, s < 2 ^ (t.globalDepth + 1) →
      ({ t with globalDepth := t.globalDepth + 1, dir := (t.dir ++ t.dir) } : HashTable K V).bucketAt s
        = t.bucketAt (s % 2 ^ t.globalDepth) := by
    intro s hs
    unfold bucketAt
    rw [show ({ t with globalDepth := t.globalDepth + 1, dir := (t.dir ++ t.dir) } : HashTable K V).dir = (t.dir ++ t.dir) from rfl,
      hget s hs]
  refine ⟨hlen1, ?_, hInv.capPos, hInv.sizeEq, hInv.lenLe, hInv.keysNodup, ?_, ?_, ?_, ?_⟩
  · intro s hs
    exact hInv.dirValid s (by rcases List.mem_append.mp hs with h | h <;> exact h)
  · intro s hs
    have hs' : s < 2 ^ (t.globalDepth + 1) := by rw [← hlen1]; exact hs
    rw [hbat s hs']
    exact le_trans (hInv.depthLe _ (hsm s)) (Nat.le_succ _)
  · intro s hs p hp
    have hs' : s < 2 ^ (t.globalDepth + 1) := by rw [← hlen1]; exact hs
    rw [hbat s hs'] at hp ⊢
    have hcoh := hInv.coh _ (hsm s) p hp
    have hdl : (t.bucketAt (s % 2 ^ t.globalDepth)).depth ≤ t.globalDepth :=
      hInv.depthLe _ (hsm s)
    rw [hcoh, Nat.mod_mod_of_dvd s (pow_dvd_pow 2 hdl)]
  · intro s hs s2 hs2 hmod
    have hs' : s < 2 ^ (t.globalDepth + 1) := by rw [← hlen1]; exact hs
    have hs2' : s2 < 2 ^ (t.globalDepth + 1) := by rw [← hlen1]; exact hs2
    rw [hbat s hs'] at hmod
    have hdl : (t.bucketAt (s % 2 ^ t.globalDepth)).depth ≤ t.globalDepth :=
      hInv.depthLe _ (hsm s)
    have hmod2 : s2 % 2 ^ t.globalDepth % 2 ^ (t.bucketAt (s % 2 ^ t.globalDepth)).depth
        = s % 2 ^ t.globalDepth % 2 ^ (t.bucketAt (s % 2 ^ t.globalDepth)).depth := by
      rw [Nat.mod_mod_of_dvd s2 (pow_dvd_pow 2 hdl), Nat.mod_mod_of_dvd s (pow_dvd_pow 2 hdl)]
      exact hmod
    have := hInv.sameClass _ (hsm s) _ (hsm s2) hmod2
    show (t.dir ++ t.dir).getD s2 0 = (t.dir ++ t.dir).getD s 0
    rw [hget s hs', hget s2 hs2', this]
  · intro s hs s2 hs2 heq
    have hs' : s < 2 ^ (t.globalDepth + 1) := by rw [← hlen1]; exact hs
    have hs2' : s2 < 2 ^ (t.globalDepth + 1) := by rw [← hlen1]; exact hs2
    rw [show ({ t with globalDepth := t.globalDepth + 1, dir := (t.dir ++ t.dir) } : HashTable K V).dir = (t.dir ++ t.dir) from rfl,
      hget s hs', hget s2 hs2'] at heq
    rw [hbat s hs']
    have hdl : (t.bucketAt (s % 2 ^ t.globalDepth)).depth ≤ t.globalDepth :=
      hInv.depthLe _ (hsm s)
    have := hInv.sameIdx _ (hsm s) _ (hsm s2) heq
    rw [Nat.mod_mod_of_dvd s2 (pow_dvd_pow 2 hdl), Nat.mod_mod_of_dvd s (pow_dvd_pow 2 hdl)]
      at this
    exact this

theorem splitStep_spec (hash : K → Nat) (key : K) (t : HashTable K V)
    (hInv : Inv hash t) :
    Inv hash (splitStep hash key t) ∧
    ((splitStep hash key t).bucketAt
        ((splitStep hash key t).indexOf hash key)).depth
      = (t.bucketAt (t.indexOf hash key)).depth + 1 ∧
    ∀ p ∈ ((splitStep hash key t).bucketAt
        ((splitStep hash key t).indexOf hash key)).list,
      p ∈ (t.bucketAt (t.indexOf hash key)).list := by
  have hidxt : t.indexOf hash key < t.dir.length := hInv.index_lt key
  have hidx2 : t.indexOf hash key < 2 ^ t.globalDepth := by
    rw [← hInv.dirLen]
    exact hidxt
  have hbmem : t.bucketAt (t.indexOf hash key) ∈ t.buckets := hInv.bucketAt_mem hidxt
  have hdlow : (t.bucketAt (t.indexOf hash key)).depth ≤ t.globalDepth :=
    hInv.depthLe _ hidxt
  by_cases hdg : (t.bucketAt (t.indexOf hash key)).depth = t.globalDepth
  · -- the directory doubles first
    have hInvA : Inv hash ({ t with globalDepth := t.globalDepth + 1, dir := (t.dir ++ t.dir) } : HashTable K V) := inv_double hash hInv
    have hmodid : t.indexOf hash key % 2 ^ t.globalDepth = t.indexOf hash key :=
      Nat.mod_eq_of_lt hidx2
    have hidxA : t.indexOf hash key
        < ({ t with globalDepth := t.globalDepth + 1, dir := (t.dir ++ t.dir) } : HashTable K V).dir.length := by
      show _ < (t.dir ++ t.dir).length
      rw [List.length_append]
      omega
    have hptrA : ({ t with globalDepth := t.globalDepth + 1, dir := (t.dir ++ t.dir) } : HashTable K V).dir.getD (t.indexOf hash key) 0
        = t.dir.getD (t.indexOf hash key) 0 := by
      show (t.dir ++ t.dir).getD _ 0 = _
      rw [double_getD t hInv.dirLen _
        (lt_of_lt_of_le hidx2 (Nat.pow_le_pow_right (by omega) (Nat.le_succ _))), hmodid]
    have hbA : ({ t with globalDepth := t.globalDepth + 1, dir := (t.dir ++ t.dir) } : HashTable K V).bucketAt (t.indexOf hash key)
        = t.bucketAt (t.indexOf hash key) := by
      unfold bucketAt
      rw [show ({ t with globalDepth := t.globalDepth + 1, dir := (t.dir ++ t.dir) } : HashTable K V).dir = (t.dir ++ t.dir) from rfl, hptrA]
    have hd1A : (t.bucketAt (t.indexOf hash key)).depth + 1
        ≤ ({ t with globalDepth := t.globalDepth + 1, dir := (t.dir ++ t.dir) } : HashTable K V).globalDepth := by
      show _ ≤ t.globalDepth + 1
      omega
    have hred := redistribute_spec hash
      ({ t with globalDepth := t.globalDepth + 1, dir := (t.dir ++ t.dir) } : HashTable K V).globalDepth
      ((t.bucketAt (t.indexOf hash key)).depth + 1)
      (t.indexOf hash key % 2 ^ ((t.bucketAt (t.indexOf hash key)).depth + 1))
      (t.bucketAt (t.indexOf hash key)).list []
      ({ t.bucketAt (t.indexOf hash key) with
          depth := (t.bucketAt (t.indexOf hash key)).depth + 1 })
      ⟨[], t.bucketSize, (t.bucketAt (t.indexOf hash key)).depth + 1⟩
      (by simp) (by simpa using hInv.keysNodup _ hbmem) (by simp)
      (by
        show 0 + (t.bucketAt (t.indexOf hash key)).list.length ≤ t.bucketSize
        rw [Nat.zero_add, ← hInv.sizeEq _ hbmem]
        exact hInv.lenLe _ hbmem)
    have hg2 : (splitStep hash key t).globalDepth = t.globalDepth + 1 := by
      simp only [splitStep]
      rw [if_pos hdg]
    have hsidx : (splitStep hash key t).indexOf hash key
        = hash key % 2 ^ (t.globalDepth + 1) := by
      unfold indexOf
      rw [hg2]
    have hidxS : (splitStep hash key t).indexOf hash key
        < ({ t with globalDepth := t.globalDepth + 1, dir := (t.dir ++ t.dir) } : HashTable K V).dir.length := by
      show _ < (t.dir ++ t.dir).length
      rw [hsidx, List.length_append, hInv.dirLen]
      have h3 := Nat.mod_lt (hash key) (Nat.two_pow_pos (t.globalDepth + 1))
      rw [pow_succ] at h3
      omega
    have hcls :
        (splitStep hash key t).indexOf hash key
            % 2 ^ ((t.bucketAt (t.indexOf hash key)).depth + 1)
          = t.indexOf hash key % 2 ^ ((t.bucketAt (t.indexOf hash key)).depth + 1) ∨
        (splitStep hash key t).indexOf hash key
            % 2 ^ ((t.bucketAt (t.indexOf hash key)).depth + 1)
          = (if t.indexOf hash key % 2 ^ ((t.bucketAt (t.indexOf hash key)).depth + 1)
               < 2 ^ (t.bucketAt (t.indexOf hash key)).depth
             then t.indexOf hash key % 2 ^ ((t.bucketAt (t.indexOf hash key)).depth + 1)
               + 2 ^ (t.bucketAt (t.indexOf hash key)).depth
             else t.indexOf hash key % 2 ^ ((t.bucketAt (t.indexOf hash key)).depth + 1)
               - 2 ^ (t.bucketAt (t.indexOf hash key)).depth) := by
      apply mem_pair_of_mod (Nat.mod_lt _ (Nat.two_pow_pos _))
        (Nat.mod_lt _ (Nat.two_pow_pos _))
      calc (splitStep hash key t).indexOf hash key
            % 2 ^ ((t.bucketAt (t.indexOf hash key)).depth + 1)
            % 2 ^ (t.bucketAt (t.indexOf hash key)).depth
          = (splitStep hash key t).indexOf hash key
              % 2 ^ (t.bucketAt (t.indexOf hash key)).depth :=
            Nat.mod_mod_of_dvd _ (pow_dvd_pow 2 (Nat.le_succ _))
        _ = hash key % 2 ^ (t.globalDepth + 1)
              % 2 ^ (t.bucketAt (t.indexOf hash key)).depth := by rw [hsidx]
        _ = hash key % 2 ^ (t.bucketAt (t.indexOf hash key)).depth :=
            Nat.mod_mod_of_dvd _ (pow_dvd_pow 2 (by rw [hdg]; omega))
        _ = hash key % 2 ^ t.globalDepth
              % 2 ^ (t.bucketAt (t.indexOf hash key)).depth :=
            (Nat.mod_mod_of_dvd _ (pow_dvd_pow 2 hdlow)).symm
        _ = t.indexOf hash key % 2 ^ (t.bucketAt (t.indexOf hash key)).depth := rfl
        _ = t.indexOf hash key % 2 ^ ((t.bucketAt (t.indexOf hash key)).depth + 1)
              % 2 ^ (t.bucketAt (t.indexOf hash key)).depth :=
            (Nat.mod_mod_of_dvd _ (pow_dvd_pow 2 (Nat.le_succ _))).symm
    have hspec := splitAssembled_spec hash key
      ({ t with globalDepth := t.globalDepth + 1, dir := (t.dir ++ t.dir) } : HashTable K V)
      (splitStep hash key t) t.bucketSize
      (t.indexOf hash key) (t.dir.getD (t.indexOf hash key) 0)
      (t.bucketAt (t.indexOf hash key))
      ⟨(t.bucketAt (t.indexOf hash key)).list.filter
        (fun p => decide ((hash p.1 % 2
            ^ ({ t with globalDepth := t.globalDepth + 1, dir := (t.dir ++ t.dir) } : HashTable K V).globalDepth)
          % 2 ^ ((t.bucketAt (t.indexOf hash key)).depth + 1)
          = t.indexOf hash key % 2 ^ ((t.bucketAt (t.indexOf hash key)).depth + 1))),
        (t.bucketAt (t.indexOf hash key)).size,
        (t.bucketAt (t.indexOf hash key)).depth + 1⟩
      ⟨(t.bucketAt (t.indexOf hash key)).list.filter
        (fun p => decide (¬ (hash p.1 % 2
            ^ ({ t with globalDepth := t.globalDepth + 1, dir := (t.dir ++ t.dir) } : HashTable K V).globalDepth)
          % 2 ^ ((t.bucketAt (t.indexOf hash key)).depth + 1)
          = t.indexOf hash key % 2 ^ ((t.bucketAt (t.indexOf hash key)).depth + 1))),
        t.bucketSize,
        (t.bucketAt (t.indexOf hash key)).depth + 1⟩
      hInvA hidxA hptrA hbA rfl hd1A rfl rfl
      (by
        show (splitStep hash key t).globalDepth = _
        exact hg2)
      rfl
      (by
        show (splitStep hash key t).buckets = _
        simp only [splitStep]
        rw [if_pos hdg, hred]
        simp)
      (by
        show (splitStep hash key t).dir = _
        simp only [splitStep, Nat.add_sub_cancel]
        rw [if_pos hdg])
    obtain ⟨hdep2, hsub2⟩ := hspec.2 _ hidxS hcls
    exact ⟨hspec.1, hdep2, hsub2⟩
  · -- no doubling: the bucket splits inside the existing directory
    have hd1 : (t.bucketAt (t.indexOf hash key)).depth + 1 ≤ t.globalDepth :=
      Nat.succ_le_of_lt (Nat.lt_of_le_of_ne hdlow hdg)
    have hred := redistribute_spec hash t.globalDepth
      ((t.bucketAt (t.indexOf hash key)).depth + 1)
      (t.indexOf hash key % 2 ^ ((t.bucketAt (t.indexOf hash key)).depth + 1))
      (t.bucketAt (t.indexOf hash key)).list []
      ({ t.bucketAt (t.indexOf hash key) with
          depth := (t.bucketAt (t.indexOf hash key)).depth + 1 })
      ⟨[], t.bucketSize, (t.bucketAt (t.indexOf hash key)).depth + 1⟩
      (by simp) (by simpa using hInv.keysNodup _ hbmem) (by simp)
      (by
        show 0 + (t.bucketAt (t.indexOf hash key)).list.length ≤ t.bucketSize
        rw [Nat.zero_add, ← hInv.sizeEq _ hbmem]
        exact hInv.lenLe _ hbmem)
    have hg2 : (splitStep hash key t).globalDepth = t.globalDepth := by
      simp only [splitStep]
      rw [if_neg hdg]
    have hsidx : (splitStep hash key t).indexOf hash key = t.indexOf hash key := by
      unfold indexOf
      rw [hg2]
    have hspec := splitAssembled_spec hash key t
      (splitStep hash key t) t.bucketSize
      (t.indexOf hash key) (t.dir.getD (t.indexOf hash key) 0)
      (t.bucketAt (t.indexOf hash key))
      ⟨(t.bucketAt (t.indexOf hash key)).list.filter
        (fun p => decide ((hash p.1 % 2 ^ t.globalDepth)
          % 2 ^ ((t.bucketAt (t.indexOf hash key)).depth + 1)
          = t.indexOf hash key % 2 ^ ((t.bucketAt (t.indexOf hash key)).depth + 1))),
        (t.bucketAt (t.indexOf hash key)).size,
        (t.bucketAt (t.indexOf hash key)).depth + 1⟩
      ⟨(t.bucketAt (t.indexOf hash key)).list.filter
        (fun p => decide (¬ (hash p.1 % 2 ^ t.globalDepth)
          % 2 ^ ((t.bucketAt (t.indexOf hash key)).depth + 1)
          = t.indexOf hash key % 2 ^ ((t.bucketAt (t.indexOf hash key)).depth + 1))),
        t.bucketSize,
        (t.bucketAt (t.indexOf hash key)).depth + 1⟩
      hInv hidxt rfl rfl rfl hd1 rfl rfl
      (by
        show (splitStep hash key t).globalDepth = _
        exact hg2)
      rfl
      (by
        show (splitStep hash key t).buckets = _
        simp only [splitStep]
        rw [if_neg hdg, hred]
        simp)
      (by
        show (splitStep hash key t).dir = _
        simp only [splitStep, Nat.add_sub_cancel]
        rw [if_neg hdg])
    obtain ⟨hdep2, hsub2⟩ := hspec.2 ((splitStep hash key t).indexOf hash key)
      (by rw [hsidx]; exact hidxt) (Or.inl (by rw [hsidx]))
    exact ⟨hspec.1, hdep2, hsub2⟩

theorem inv_set_sub (hash : K → Nat) {t : HashTable K V} (sIdx : Nat)
    (hs : sIdx < t.dir.length) (nb : Bucket K V) (hInv : Inv hash t)
    (hdepE : nb.depth = (t.bucketAt sIdx).depth)
    (hszE : nb.size = (t.bucketAt sIdx).size)
    (hsub : ∀ p ∈ nb.list, p ∈ (t.bucketAt sIdx).list)
    (hnd : (nb.list.map Prod.fst).Nodup)
    (hlenE : nb.list.length ≤ nb.size) :
    Inv hash ({ t with buckets := (t.buckets.set (t.dir.getD sIdx 0) nb) }
      : HashTable K V) := by
  have hbidx : t.dir.getD sIdx 0 < t.buckets.length := hInv.dirPtr_lt hs
  have hbmem : t.bucketAt sIdx ∈ t.buckets := hInv.bucketAt_mem hs
  have hbat := bucketAt_update t (t.dir.getD sIdx 0) nb hbidx
  have hbeq : ∀ s, t.dir.getD s 0 = t.dir.getD sIdx 0 →
      t.bucketAt s = t.bucketAt sIdx := by
    intro s hseq
    unfold bucketAt
    rw [hseq]
  have hdep : ∀ s,
      (({ t with buckets := (t.buckets.set (t.dir.getD sIdx 0) nb) }
        : HashTable K V).bucketAt s).depth = (t.bucketAt s).depth := by
    intro s
    rw [hbat s]
    by_cases h : t.dir.getD s 0 = t.dir.getD sIdx 0
    · rw [if_pos h, hdepE, hbeq s h]
    · rw [if_neg h]
  refine ⟨hInv.dirLen, ?_, hInv.capPos, ?_, ?_, ?_, ?_, ?_, ?_, ?_⟩
  · intro s hs2
    rw [List.length_set]
    exact hInv.dirValid s hs2
  · intro c hc
    rcases List.mem_or_eq_of_mem_set hc with h1 | h1
    · exact hInv.sizeEq c h1
    · rw [h1, hszE]
      exact hInv.sizeEq _ hbmem
  · intro c hc
    rcases List.mem_or_eq_of_mem_set hc with h1 | h1
    · exact hInv.lenLe c h1
    · rw [h1]
      exact hlenE
  · intro c hc
    rcases List.mem_or_eq_of_mem_set hc with h1 | h1
    · exact hInv.keysNodup c h1
    · rw [h1]
      exact hnd
  · intro s hs2
    rw [hdep s]
    exact hInv.depthLe s hs2
  · intro s hs2 p hp
    rw [hdep s]
    rw [hbat s] at hp
    by_cases h : t.dir.getD s 0 = t.dir.getD sIdx 0
    · rw [if_pos h] at hp
      exact hInv.coh s hs2 p (by rw [hbeq s h]; exact hsub p hp)
    · rw [if_neg h] at hp
      exact hInv.coh s hs2 p hp
  · intro s hs2 s2 hs22 hmod
    rw [hdep s] at hmod
    exact hInv.sameClass s hs2 s2 hs22 hmod
  · intro s hs2 s2 hs22 heq
    rw [hdep s]
    exact hInv.sameIdx s hs2 s2 hs22 heq

theorem inv_remove (hash : K → Nat) {t : HashTable K V} (key : K)
    (hInv : Inv hash t) : Inv hash (remove hash t key).1 := by
  cases hf : (t.bucketAt (t.indexOf hash key)).find key with
  | none =>
    simp only [remove, hf]
    exact hInv
  | some v0 =>
    simp only [remove, hf]
    apply inv_set_sub hash (t.indexOf hash key) (hInv.index_lt key)
      ((t.bucketAt (t.indexOf hash key)).remove key).1 hInv rfl rfl
    · intro p hp
      exact (Bucket.removeList_sublist _ key).subset hp
    · exact (((Bucket.removeList_sublist _ key).map Prod.fst).nodup
        (hInv.keysNodup _ (hInv.bucketAt_mem (hInv.index_lt key))))
    · exact le_trans ((Bucket.removeList_sublist _ key).length_le)
        (hInv.lenLe _ (hInv.bucketAt_mem (hInv.index_lt key)))

theorem inv_insertLoop (hash : K → Nat) (key : K) (v : V) :
    ∀ (fuel : Nat) (t t' : HashTable K V), Inv hash t →
      insertLoop hash key v t fuel = some t' → Inv hash t' := by
  intro fuel
  induction fuel with
  | zero => intro t t' _ h; simp [insertLoop] at h
  | succ n ih =>
    intro t t' hInv h
    simp only [insertLoop] at h
    by_cases hr : ((t.bucketAt (t.indexOf hash key)).insert key v).2 = true
    · rw [if_pos hr, Option.some.injEq] at h
      rw [← h]
      exact inv_insert_success hash key v hInv hr
    · rw [if_neg hr] at h
      exact ih (splitStep hash key t) t' (splitStep_spec hash key t hInv).1 h

theorem inv_of_reachable {hash : K → Nat} {t : HashTable K V}
    (hR : Reachable hash t) : Inv hash t := by
  induction hR with
  | init cap hcap => exact inv_newTable hash cap hcap
  | insertStep _ heq ih => exact inv_insertLoop _ _ _ _ _ _ ih heq
  | removeStep key _ ih => exact inv_remove _ key ih

/-- C2: directory-bucket coherence holds in every reachable table state —
after construction and after any sequence of (terminating) insertions and
removals, every entry of the bucket at slot `s` agrees with `s` on the
bucket's low `d_local` bits. -/
theorem ht_coherence (hash : K → Nat) (t : HashTable K V)
    (hR : Reachable hash t) : Coherent hash t :=
  (inv_of_reachable hR).coh

theorem ht_coherence_witness :
    Coherent (fun n => n)
      ((insertLoop (fun n => n) 0 0 (newTable 2 : HashTable Nat Nat) 1).getD
        (newTable 2)) :=
  ht_coherence (fun n => n) _
    (@Reachable.insertStep Nat Nat _ (fun n => n) (newTable 2) _ 0 0 1
      (Reachable.init 2 (by decide)) (by decide))

theorem insertLoop_succeeds (hash : K → Nat) (key : K) (v : V) (D : Nat)
    (hkD : hash key < 2 ^ D) :
    ∀ (m : Nat) (t : HashTable K V), Inv hash t →
      (∀ p ∈ (t.bucketAt (t.indexOf hash key)).list,
        hash p.1 < 2 ^ D ∧ (hash p.1 = hash key → p.1 = key)) →
      D ≤ (t.bucketAt (t.indexOf hash key)).depth + m →
      (insertLoop hash key v t (m + 1)).isSome = true := by
  intro m
  induction m with
  | zero =>
    intro t hInv hbound hD
    simp only [insertLoop]
    by_cases hr : ((t.bucketAt (t.indexOf hash key)).insert key v).2 = true
    · rw [if_pos hr]
      rfl
    · exfalso
      have hrf : ((t.bucketAt (t.indexOf hash key)).insert key v).2 = false := by
        revert hr
        cases ((t.bucketAt (t.indexOf hash key)).insert key v).2 <;> simp
      obtain ⟨hnokey, hfull⟩ := Bucket.insert_fails _ key v hrf
      have hmem : t.bucketAt (t.indexOf hash key) ∈ t.buckets :=
        hInv.bucketAt_mem (hInv.index_lt key)
      have hpos : 0 < (t.bucketAt (t.indexOf hash key)).list.length :=
        lt_of_lt_of_le (lt_of_lt_of_le hInv.capPos (le_of_eq (hInv.sizeEq _ hmem).symm))
          hfull
      obtain ⟨p, hp⟩ := List.exists_mem_of_length_pos hpos
      have hcoh := hInv.coh (t.indexOf hash key) (hInv.index_lt key) p hp
      have hdle : (t.bucketAt (t.indexOf hash key)).depth ≤ t.globalDepth :=
        hInv.depthLe _ (hInv.index_lt key)
      have hDd : D ≤ (t.bucketAt (t.indexOf hash key)).depth := by omega
      have h2le : (2 : Nat) ^ D ≤ 2 ^ (t.bucketAt (t.indexOf hash key)).depth :=
        Nat.pow_le_pow_right (by omega) hDd
      have hidxmod : t.indexOf hash key
            % 2 ^ (t.bucketAt (t.indexOf hash key)).depth
          = hash key % 2 ^ (t.bucketAt (t.indexOf hash key)).depth :=
        Nat.mod_mod_of_dvd _ (pow_dvd_pow 2 hdle)
      have h1 : hash p.1 % 2 ^ (t.bucketAt (t.indexOf hash key)).depth = hash p.1 :=
        Nat.mod_eq_of_lt (lt_of_lt_of_le (hbound p hp).1 h2le)
      have h2 : hash key % 2 ^ (t.bucketAt (t.indexOf hash key)).depth = hash key :=
        Nat.mod_eq_of_lt (lt_of_lt_of_le hkD h2le)
      have h3 : hash p.1 = hash key := by
        rw [← h1, ← h2, hcoh, hidxmod]
      exact hnokey p hp ((hbound p hp).2 h3)
  | succ n ih =>
    intro t hInv hbound hD
    simp only [insertLoop]
    by_cases hr : ((t.bucketAt (t.indexOf hash key)).insert key v).2 = true
    · rw [if_pos hr]
      rfl
    · rw [if_neg hr]
      obtain ⟨hInv2, hdepth2, hsubs⟩ := splitStep_spec hash key t hInv
      apply ih (splitStep hash key t) hInv2
      · intro p hp
        exact hbound p (hsubs p hp)
      · rw [hdepth2]
        omega

/-- C9: `Insert(k,v)`'s retry loop terminates on every reachable state when
the hash separates `k` from the stored keys: `insertFuel` (one more than a
bound `D` with every relevant hash below `2 ^ D`) iterations suffice,
because each failing iteration raises the local depth of `k`'s bucket by
one, and at depth `D` a full bucket would have to contain a key hashing
exactly like `k`. -/
theorem ht_insert_terminates (hash : K → Nat) (t : HashTable K V) (key : K) (v : V)
    (hR : Reachable hash t)
    (hinj : ∀ a ∈ key :: tableKeys t, ∀ c ∈ key :: tableKeys t,
        hash a = hash c → a = c) :
    (insertLoop hash key v t (insertFuel hash t key)).isSome = true := by
  have hInv := inv_of_reachable hR
  have hkey_mem : key ∈ key :: tableKeys t := List.mem_cons_self key _
  have hlt : ∀ a ∈ key :: tableKeys t, hash a < 2 ^ hashBound hash t key := by
    intro a ha
    have h1 : hash a ≤ ((key :: tableKeys t).map hash).foldr max 0 :=
      le_foldr_max _ _ (List.mem_map_of_mem hash ha)
    have h2 : hashBound hash t key < 2 ^ hashBound hash t key :=
      Nat.lt_two_pow _
    have h3 : hash a < hashBound hash t key := by
      unfold hashBound
      omega
    omega
  have hbmem2 : ∀ p ∈ (t.bucketAt (t.indexOf hash key)).list, p.1 ∈ tableKeys t := by
    intro p hp
    unfold tableKeys
    rw [List.mem_flatten]
    exact ⟨(t.bucketAt (t.indexOf hash key)).list.map Prod.fst,
      List.mem_map_of_mem _ (hInv.bucketAt_mem (hInv.index_lt key)),
      List.mem_map_of_mem _ hp⟩
  exact insertLoop_succeeds hash key v (hashBound hash t key) (hlt key hkey_mem)
    (hashBound hash t key) t hInv
    (fun p hp => ⟨hlt p.1 (List.mem_cons_of_mem key (hbmem2 p hp)),
      fun he => hinj p.1 (List.mem_cons_of_mem key (hbmem2 p hp)) key hkey_mem he⟩)
    (Nat.le_add_left _ _)

theorem ht_insert_terminates_witness :
    (insertLoop (fun n => n) 5 9 (newTable 1 : HashTable Nat Nat)
      (insertFuel (fun n => n) (newTable 1 : HashTable Nat Nat) 5)).isSome = true :=
  ht_insert_terminates (fun n => n) (newTable 1) 5 9
    (Reachable.init 1 (by decide)) (by decide)

theorem find_insertLoop (hash : K → Nat) (key : K) (v : V) :
    ∀ (fuel : Nat) (t t' : HashTable K V),
      insertLoop hash key v t fuel = some t' → find hash t' key = some v := by
  intro fuel
  induction fuel with
  | zero => intro t t' h; simp [insertLoop] at h
  | succ n ih =>
    intro t t' h
    simp only [insertLoop] at h
    by_cases hr : ((t.bucketAt (t.indexOf hash key)).insert key v).2 = true
    · rw [if_pos hr, Option.some.injEq] at h
      have hlt := dirIdx_lt_of_insert_true t (t.indexOf hash key) key v hr
      rw [← h, find_buckets_update, getD_set_self _ _ _ _ hlt]
      exact Bucket.insert_find_self _ key v hr
    · rw [if_neg hr] at h
      exact ih (splitStep hash key t) t' h

/-- C3: after a terminating `Insert(k,v)` on a reachable state, `Find(k)`
returns `v`; after `Insert(k,v1)` then `Insert(k,v2)`, `Find(k)` returns
`v2`. -/
theorem ht_insert_find (hash : K → Nat) (t : HashTable K V) (key : K)
    (hR : Reachable hash t) :
    (∀ (v : V) (fuel : Nat) (t' : HashTable K V),
        insertLoop hash key v t fuel = some t' → find hash t' key = some v) ∧
    (∀ (v1 v2 : V) (f1 f2 : Nat) (t1 t2 : HashTable K V),
        insertLoop hash key v1 t f1 = some t1 →
        insertLoop hash key v2 t1 f2 = some t2 →
        find hash t2 key = some v2) :=
  ⟨fun v fuel t' h => find_insertLoop hash key v fuel t t' h,
   fun v1 v2 f1 f2 t1 t2 h1 h2 => find_insertLoop hash key v2 f2 t1 t2 h2⟩

theorem ht_insert_find_witness :
    find (fun n => n) ((insertLoop (fun n => n) 7 5 (newTable 2) 1).getD (newTable 2)) 7
      = some 5 :=
  (ht_insert_find (fun n => n) (newTable 2) 7 (Reachable.init 2 (by decide))).1
    5 1 _ (by decide)

/-- C4: inserting a key that is already bound overwrites in place on the
first loop iteration: the global depth, directory, bucket count, arena size
and every bucket's local depth are unchanged, and `Find` then returns the
new value; scenario H2 (capacity 1, `Insert(7,"a"); Insert(7,"b")`) ends
with `Find(7) = "b"`, one bucket and global depth 0. -/
theorem ht_insert_overwrite_frame (hash : K → Nat) (t : HashTable K V)
    (key : K) (v v0 : V) (fuel : Nat)
    (hfind : find hash t key = some v0) :
    (∃ t', insertLoop hash key v t (fuel + 1) = some t' ∧
      t'.globalDepth = t.globalDepth ∧ t'.dir = t.dir ∧
      t'.numBuckets = t.numBuckets ∧
      t'.buckets.length = t.buckets.length ∧
      (∀ j, (t'.buckets.getD j ⟨[], 0, 0⟩).depth
              = (t.buckets.getD j ⟨[], 0, 0⟩).depth) ∧
      find hash t' key = some v) ∧
    scenarioH2.map (fun T => (find (fun n => n) T 7, T.numBuckets, T.globalDepth))
      = some (some "b", 1, 0) := by
  constructor
  · obtain ⟨l2, hl2⟩ := Bucket.overwriteFirst_of_findVal _ key v0 v hfind
    have hr : ((t.bucketAt (t.indexOf hash key)).insert key v).2 = true := by
      simp [Bucket.insert, hl2]
    have hlt := dirIdx_lt_of_find_some t (t.indexOf hash key) key v0 hfind
    have hstep : insertLoop hash key v t (fuel + 1)
        = some { t with buckets :=
            (t.buckets.set (t.dir.getD (t.indexOf hash key) 0)
              ((t.bucketAt (t.indexOf hash key)).insert key v).1) } := by
      simp only [insertLoop, if_pos hr]
    refine ⟨_, hstep, rfl, rfl, rfl, List.length_set _ _ _, ?_, ?_⟩
    · intro j
      exact (getD_set_preserve t.buckets _ j _ hlt
        (Bucket.insert_depth _ key v) (Bucket.insert_size _ key v)).1
    · rw [find_buckets_update, getD_set_self _ _ _ _ hlt]
      exact Bucket.insert_find_self _ key v hr
  · decide

theorem ht_insert_overwrite_frame_witness :
    scenarioH2.map (fun T => (find (fun n => n) T 7, T.numBuckets, T.globalDepth))
      = some (some "b", 1, 0) :=
  (ht_insert_overwrite_frame (fun n => n)
    ((insertLoop (fun n => n) 7 5 (newTable 2) 1).getD (newTable 2)) 7 9 5 0
    (by decide)).2

/-- C5 counterexample: in scenario H1 (identity hash, capacity 2, inserts
`(0,0),(4,4),(2,2)`) the code ends with `GetNumBuckets() = 3`, not the
claimed 2: both splits increment `num_buckets_`, and the first split's empty
bucket stays referenced by directory slots 1 and 3. -/
theorem ht_scenarioH1_counterexample :
    scenarioH1.map getNumBuckets = some 3 ∧ (3 : Nat) ≠ 2 :=
  ⟨rfl, by decide⟩

/-- C5 amended: scenario H1 ends with `GetGlobalDepth() = 2`,
`GetNumBuckets() = 3` and `Find(4) = 4`. -/
theorem ht_scenarioH1_amended :
    scenarioH1.map (fun T => (getGlobalDepth T, getNumBuckets T, find (fun n => n) T 4))
      = some (2, 3, some 4) := rfl

/-- C10: `Find` is embedded as a pure function of the state (the C++ method
only reads under the latch), so it leaves the table unchanged by
construction; `Remove(k)` changes at most the entry list of the single
bucket at `slot(k)`: global depth, the directory, the bucket count, the
arena size, every other arena bucket, every bucket's local depth and
capacity, and the bindings of every other key are unchanged. -/
theorem ht_remove_frame (hash : K → Nat) (t : HashTable K V) (key : K)
    (hR : Reachable hash t) :
    (remove hash t key).1.globalDepth = t.globalDepth ∧
    (remove hash t key).1.dir = t.dir ∧
    (remove hash t key).1.numBuckets = t.numBuckets ∧
    (remove hash t key).1.bucketSize = t.bucketSize ∧
    (remove hash t key).1.buckets.length = t.buckets.length ∧
    (∀ j, j ≠ t.dir.getD (t.indexOf hash key) 0 →
      (remove hash t key).1.buckets.getD j ⟨[], 0, 0⟩
        = t.buckets.getD j ⟨[], 0, 0⟩) ∧
    (∀ j, ((remove hash t key).1.buckets.getD j ⟨[], 0, 0⟩).depth
            = (t.buckets.getD j ⟨[], 0, 0⟩).depth ∧
          ((remove hash t key).1.buckets.getD j ⟨[], 0, 0⟩).size
            = (t.buckets.getD j ⟨[], 0, 0⟩).size) ∧
    (∀ k2, k2 ≠ key → find hash (remove hash t key).1 k2 = find hash t k2) := by
  cases hf : (t.bucketAt (t.indexOf hash key)).find key with
  | none =>
    have hrw : remove hash t key = (t, false) := by
      simp only [remove, hf]
    rw [hrw]
    exact ⟨rfl, rfl, rfl, rfl, rfl, fun _ _ => rfl, fun _ => ⟨rfl, rfl⟩, fun _ _ => rfl⟩
  | some v0 =>
    have hlt := dirIdx_lt_of_find_some t (t.indexOf hash key) key v0 hf
    have hrw : (remove hash t key).1 = { t with buckets :=
        (t.buckets.set (t.dir.getD (t.indexOf hash key) 0)
          ((t.bucketAt (t.indexOf hash key)).remove key).1) } := by
      simp only [remove, hf]
    rw [hrw]
    refine ⟨rfl, rfl, rfl, rfl, List.length_set _ _ _, ?_, ?_, ?_⟩
    · intro j hj
      exact getD_set_ne _ _ _ _ _ (fun h2 => hj h2.symm)
    · intro j
      exact getD_set_preserve t.buckets _ j _ hlt rfl rfl
    · intro k2 hk2
      have hrhs : find hash t k2
          = Bucket.find (t.buckets.getD (t.dir.getD (t.indexOf hash k2) 0) ⟨[], 0, 0⟩) k2 :=
        rfl
      rw [find_buckets_update, hrhs]
      by_cases hj : t.dir.getD (t.indexOf hash k2) 0 = t.dir.getD (t.indexOf hash key) 0
      · rw [hj, getD_set_self _ _ _ _ hlt]
        exact Bucket.findVal_removeList_ne _ key k2 hk2
      · rw [getD_set_ne _ _ _ _ _ (fun h2 => hj h2.symm)]

theorem ht_remove_frame_witness :
    find (fun n => n) (remove (fun n => n) (newTable 2 : HashTable Nat Nat) 3).1 5
      = find (fun n => n) (newTable 2 : HashTable Nat Nat) 5 :=
  ((ht_remove_frame (fun n => n) (newTable 2) 3
    (Reachable.init 2 (by decide))).2.2.2.2.2.2.2) 5 (by decide)

end HashTable

end bustub
